import Mathlib

/-!
Verification of the route-coverage planner of `src/main.rs` (frontier-route).

The core of the program is `find_longest_paths`: a reduction loop that
repeatedly finds a longest simple path from the start node (petgraph
`all_simple_paths` over every target node, reduced with `max_by_key` on the
node count), appends a shortest return path (petgraph `astar` with unit edge
weights and zero heuristic), removes the consumed nodes except the anchor
(`filter_map` based `filter_nodes`), and then a splice walk that, at the
first occurrence of each id, recurses on the original graph restricted to
globally unvisited nodes plus that id.

Modelling notes.
* Node ids (`u32`) are modelled as `Nat`; the algorithm only compares ids
  for equality, never does arithmetic on them.
* A petgraph graph is modelled by its list of node ids (in index order) and
  its list of edges as unordered id pairs.  Node indices are redundant once
  ids are distinct (`WF`), since every operation of the program either works
  with ids directly or treats indices as opaque handles within one graph
  instance; `filter_map` preserves node weights and relative order.
* `all_simple_paths g a t 0 None` is modelled by the set of all duplicate
  free paths from `a` to `t` along edges, of length at least two (per its
  documentation it produces the simple paths from `a` to `t`; the trivial
  single node path is never produced).
* The rayon `par_bridge().filter_map(..).max_by_key(..)` reduction returns
  some longest candidate, with scheduler dependent tie breaking.  The loop
  is therefore parameterized by a selector; `ValidSel` captures exactly what
  the reduction guarantees, and `canonicalSel` is the sequential
  determinization (targets in index order, `max_by_key` keeping the last
  maximum, as the std `Iterator::max_by_key` does).
* `astar` with weight 1 and heuristic 0 is breadth first search; `bfs`
  below is a first-in-first-out determinization of it.
* The Rust loops are modelled with explicit fuel; the `outOfFuel` outcome is
  proved unreachable for the fuel the wrappers pass, which is how the
  termination claims are settled.
-/

namespace FrontierRoute

/-- A graph instance: node ids in index order plus undirected edges as id
pairs, mirroring `Graph<System, f32, Undirected>` with the `System` weight
reduced to its id. -/
structure Graph where
  nodes : List Nat
  edges : List (Nat × Nat)
deriving DecidableEq, Repr

/-- Well-formed graph: distinct ids (the program builds nodes from a map
keyed by id) and edges between present nodes. -/
def WF (g : Graph) : Prop :=
  g.nodes.Nodup ∧ ∀ e ∈ g.edges, e.1 ∈ g.nodes ∧ e.2 ∈ g.nodes

instance (g : Graph) : Decidable (WF g) :=
  inferInstanceAs (Decidable (_ ∧ _))

/-- Undirected adjacency: some stored edge joins `x` and `y`. -/
def Adj (g : Graph) (x y : Nat) : Prop :=
  (x, y) ∈ g.edges ∨ (y, x) ∈ g.edges

instance (g : Graph) (x y : Nat) : Decidable (Adj g x y) :=
  inferInstanceAs (Decidable (_ ∨ _))

/-- Reachability along edges. -/
def Reach (g : Graph) : Nat → Nat → Prop :=
  Relation.ReflTransGen (Adj g)

/-- Neighbors of `x` among the graph's nodes, in node (index) order. -/
def neighbors (g : Graph) (x : Nat) : List Nat :=
  g.nodes.filter (fun y => decide (Adj g x y))

/-- All duplicate-free paths along edges starting at `x`, avoiding `seen`,
of length at most `fuel + 1`, in depth-first enumeration order.  This is the
search space of petgraph `all_simple_paths` from `x`. -/
def pathsFrom (g : Graph) : Nat → List Nat → Nat → List (List Nat)
  | 0, _, x => [[x]]
  | fuel + 1, seen, x =>
    [x] :: ((neighbors g x).filter (fun y => decide (¬ y ∈ x :: seen))).flatMap
      (fun y => (pathsFrom g fuel (x :: seen) y).map (fun p => x :: p))

/-- Whether a duplicate-free path can be closed back into the anchor `a`:
its last node is adjacent to `a`. -/
def closesTo (g : Graph) (a : Nat) (p : List Nat) : Bool :=
  match p.getLast? with
  | some l => decide (Adj g l a)
  | none => false

/-- The closed walks `all_simple_paths(&graph, a, a, 0, None)` yields when
the target equals the anchor: for every duplicate-free path `a, v1, .., vk`
with `1 ≤ k` and `k + 2 ≤ node_count` whose last node is adjacent to `a`,
petgraph produces the walk `a, v1, .., vk, a` (the `child == to` check comes
before the visited test, and the `max_length = node_count - 1` cap on the
visited set bounds `k` by `node_count - 2`). -/
def cyclePaths (g : Graph) (a : Nat) : List (List Nat) :=
  ((pathsFrom g g.nodes.length [] a).filter
    (fun p => decide (2 ≤ p.length) && decide (p.length + 1 ≤ g.nodes.length) &&
      closesTo g a p)).map (fun p => p ++ [a])

/-- The candidate paths of the path search from anchor `a`, across all
targets `t` of the Rust loop (which includes `t = a` itself): all simple
paths from `a` to some other node (at least one edge), plus the closed
walks back to `a`. -/
def candidates (g : Graph) (a : Nat) : List (List Nat) :=
  (pathsFrom g g.nodes.length [] a).filter (fun p => decide (2 ≤ p.length)) ++
    cyclePaths g a

/-- Fold of `max_by_key` shape over a list of paths: `keep n c` decides
whether a new path of length `n` replaces the current best of length `c`. -/
def chooseBy (keep : Nat → Nat → Bool) (l : List (List Nat)) : Option (List Nat) :=
  l.foldl
    (fun acc p =>
      match acc with
      | none => some p
      | some q => if keep p.length q.length then some p else some q)
    none

/-- `Iterator::max_by_key` keeps the last of several equal maxima. -/
def lastMaxBy (l : List (List Nat)) : Option (List Nat) :=
  chooseBy (fun n c => decide (c ≤ n)) l

/-- Per-target inner reduction:
`all_simple_paths(&graph, a, t, 0, None).max_by_key(len)`. -/
def targetBest (g : Graph) (a t : Nat) : Option (List Nat) :=
  lastMaxBy ((candidates g a).filter (fun p => decide (p.getLast? = some t)))

/-- The sequential determinization of the parallel search in the loop body:
for every target node the best path to it, then the overall `max_by_key`. -/
def canonicalSel (g : Graph) (a : Nat) : Option (List Nat) :=
  lastMaxBy (g.nodes.filterMap (fun t => targetBest g a t))

/-- What any scheduling of the parallel reduction guarantees, for an anchor
that is a node of the graph (the program only ever searches from one): the
result is a candidate of maximum length, and `None` exactly when there is
none. -/
def ValidSel (sel : Graph → Nat → Option (List Nat)) : Prop :=
  ∀ g a, a ∈ g.nodes →
    (∀ p, sel g a = some p →
      p ∈ candidates g a ∧ ∀ q ∈ candidates g a, q.length ≤ p.length) ∧
    (sel g a = none → candidates g a = [])

/-- Breadth-first search worker: FIFO queue of reversed paths, `seen` is the
set of enqueued nodes. -/
def bfsLoop (g : Graph) (tgt : Nat) : Nat → List (List Nat) → List Nat → Option (List Nat)
  | 0, _, _ => none
  | _ + 1, [], _ => none
  | fuel + 1, p :: queue, seen =>
    match p with
    | [] => none
    | cur :: _ =>
      if cur = tgt then some p.reverse
      else
        let next := (neighbors g cur).filter (fun y => decide (¬ y ∈ seen))
        bfsLoop g tgt fuel (queue ++ next.map (fun y => y :: p)) (seen ++ next)

/-- Shortest path by hop count from `src` to `tgt`, the behaviour of
`algo::astar` with weight 1 and heuristic 0. -/
def bfs (g : Graph) (src tgt : Nat) : Option (List Nat) :=
  bfsLoop g tgt (g.nodes.length + 1) [[src]] [src]

/-- Errors of the modelled program: the three `expect` panic sites of
`find_longest_paths`, plus fuel exhaustion of the model. -/
inductive PlanError
  | startGone
  | emptyPath
  | noReturn
  | outOfFuel
deriving DecidableEq, Repr

/-- The `filter_nodes` helper: induced subgraph on the ids satisfying `p`. -/
def filterNodes (g : Graph) (p : Nat → Bool) : Graph :=
  { nodes := g.nodes.filter p
    edges := g.edges.filter (fun e => p e.1 && p e.2) }

/-- One reduction of the working graph:
`filter_nodes(&graph, |i, _| !full_path.contains(&i) || i == start_index)`. -/
def reduceGraph (g : Graph) (s : Nat) (full : List Nat) : Graph :=
  filterNodes g (fun x => decide (¬ x ∈ full) || decide (x = s))

/-- The reduction loop of `find_longest_paths`: locate the start, search a
longest path, drop the anchor, append the shortest return path without its
first node, accumulate the ids, shrink the graph, repeat until the search
finds nothing. -/
def reduceLoop (sel : Graph → Nat → Option (List Nat)) :
    Nat → Graph → Nat → Except PlanError (List Nat)
  | 0, _, _ => .error .outOfFuel
  | fuel + 1, g, s =>
    if s ∈ g.nodes then
      match sel g s with
      | none => .ok []
      | some p =>
        let tail := p.drop 1
        match tail.getLast? with
        | none => .error .emptyPath
        | some l =>
          match bfs g l s with
          | none => .error .noReturn
          | some r =>
            let full := tail ++ r.drop 1
            match reduceLoop sel fuel (reduceGraph g s full) s with
            | .error e => .error e
            | .ok rest => .ok (full ++ rest)
    else .error .startGone

/-- The graph passed to the recursive call at a first occurrence `v`:
`filter_nodes(&original_graph, |_, n| (!result.contains(&n.id) &&
!final_result.contains(&n.id)) || n.id == *id)`. -/
def spliceSub (g0 : Graph) (res acc : List Nat) (v : Nat) : Graph :=
  filterNodes g0 (fun x => (decide (¬ x ∈ res) && decide (¬ x ∈ acc)) || decide (x = v))

/-- The splice walk over the flat result: push each id, and at its first
occurrence recurse on the restricted original graph, appending the
sub-route. -/
def walkAux (findSub : Graph → Nat → Except PlanError (List Nat)) (g0 : Graph)
    (res : List Nat) : List Nat → List Nat → List Nat → Except PlanError (List Nat)
  | [], acc, _ => .ok acc
  | v :: rest, acc, visited =>
    let acc1 := acc ++ [v]
    if v ∈ visited then walkAux findSub g0 res rest acc1 visited
    else
      match findSub (spliceSub g0 res acc1 v) v with
      | .error e => .error e
      | .ok path => walkAux findSub g0 res rest (acc1 ++ path) (v :: visited)

/-- `find_longest_paths`, with explicit recursion fuel; the reduction loop
receives the fuel its termination proof requires. -/
def findLongestPathsWith (sel : Graph → Nat → Option (List Nat)) :
    Nat → Graph → Nat → Except PlanError (List Nat)
  | 0, _, _ => .error .outOfFuel
  | fuel + 1, g, s =>
    match reduceLoop sel (g.nodes.length + 1) g s with
    | .error e => .error e
    | .ok res => walkAux (findLongestPathsWith sel fuel) g res res [] [s]

/-- The program's entry point `find_longest_paths(graph, start_id)` under the
canonical determinization, with fuel sufficient for the recursion depth. -/
def findLongestPaths (g : Graph) (s : Nat) : Except PlanError (List Nat) :=
  findLongestPathsWith canonicalSel (g.nodes.length + 1) g s

/-! ### Basic facts about adjacency and filtering -/

theorem Adj.symm {g : Graph} {x y : Nat} (h : Adj g x y) : Adj g y x :=
  h.elim .inr .inl

theorem adj_mem_right {g : Graph} (hwf : WF g) {x y : Nat} (h : Adj g x y) :
    y ∈ g.nodes := by
  rcases h with h | h
  · exact (hwf.2 _ h).2
  · exact (hwf.2 _ h).1

theorem adj_mem_left {g : Graph} (hwf : WF g) {x y : Nat} (h : Adj g x y) :
    x ∈ g.nodes :=
  adj_mem_right hwf h.symm

theorem getLast?_append_ne {l2 : List Nat} (h : l2 ≠ []) :
    ∀ l1 : List Nat, (l1 ++ l2).getLast? = l2.getLast? := by
  intro l1
  induction l1 with
  | nil => simp
  | cons a t ih =>
    rw [List.cons_append]
    rw [← ih]
    cases ht : t ++ l2 with
    | nil =>
      exfalso
      rcases List.append_eq_nil.1 ht with ⟨_, h2⟩
      exact h h2
    | cons b u => simp [ht]


theorem reach_mem {g : Graph} (hwf : WF g) {s x : Nat} (h : Reach g s x) :
    x = s ∨ x ∈ g.nodes := by
  induction h with
  | refl => exact .inl rfl
  | tail _ hadj _ => exact .inr (adj_mem_right hwf hadj)

theorem mem_neighbors {g : Graph} {x y : Nat} :
    y ∈ neighbors g x ↔ y ∈ g.nodes ∧ Adj g x y := by
  simp [neighbors]

theorem mem_filterNodes_nodes {g : Graph} {p : Nat → Bool} {x : Nat} :
    x ∈ (filterNodes g p).nodes ↔ x ∈ g.nodes ∧ p x = true := by
  simp [filterNodes]

theorem mem_filterNodes_edges {g : Graph} {p : Nat → Bool} {e : Nat × Nat} :
    e ∈ (filterNodes g p).edges ↔ e ∈ g.edges ∧ p e.1 = true ∧ p e.2 = true := by
  simp [filterNodes, and_assoc]

theorem wf_filterNodes {g : Graph} (hwf : WF g) (p : Nat → Bool) :
    WF (filterNodes g p) := by
  refine ⟨hwf.1.filter p, fun e he => ?_⟩
  rw [mem_filterNodes_edges] at he
  obtain ⟨he, h1, h2⟩ := he
  exact ⟨mem_filterNodes_nodes.2 ⟨(hwf.2 e he).1, h1⟩,
    mem_filterNodes_nodes.2 ⟨(hwf.2 e he).2, h2⟩⟩

theorem adj_filterNodes {g : Graph} {p : Nat → Bool} {x y : Nat}
    (h : Adj (filterNodes g p) x y) : Adj g x y := by
  rcases h with h | h
  · exact .inl (mem_filterNodes_edges.1 h).1
  · exact .inr (mem_filterNodes_edges.1 h).1

theorem adj_filterNodes_of {g : Graph} {p : Nat → Bool} {x y : Nat}
    (h : Adj g x y) (hx : p x = true) (hy : p y = true) :
    Adj (filterNodes g p) x y := by
  rcases h with h | h
  · exact .inl (mem_filterNodes_edges.2 ⟨h, hx, hy⟩)
  · exact .inr (mem_filterNodes_edges.2 ⟨h, hy, hx⟩)

theorem reach_filterNodes {g : Graph} {p : Nat → Bool} {x y : Nat}
    (h : Reach (filterNodes g p) x y) : Reach g x y := by
  induction h with
  | refl => exact .refl
  | tail _ hadj ih => exact ih.tail (adj_filterNodes hadj)

theorem filterNodes_length_le (g : Graph) (p : Nat → Bool) :
    (filterNodes g p).nodes.length ≤ g.nodes.length :=
  List.length_filter_le _ _

theorem filterNodes_length_lt {g : Graph} {p : Nat → Bool} {x : Nat}
    (hx : x ∈ g.nodes) (hpx : p x = false) :
    (filterNodes g p).nodes.length < g.nodes.length := by
  by_contra h
  push_neg at h
  have hall : ∀ y ∈ g.nodes, p y = true := by
    have := (List.filter_length_eq_length (p := p) (l := g.nodes)).1
      (le_antisymm (List.length_filter_le _ _) h)
    exact this
  have := hall x hx
  rw [hpx] at this
  exact Bool.false_ne_true this

/-! ### The path enumeration -/

theorem pathsFrom_sound {g : Graph} :
    ∀ (fuel : Nat) (seen : List Nat) (x : Nat), ¬ x ∈ seen →
      ∀ p ∈ pathsFrom g fuel seen x,
        p.head? = some x ∧ p.Nodup ∧ p.Chain' (Adj g) ∧
          (∀ y ∈ p, ¬ y ∈ seen) ∧ (∀ y ∈ p.tail, y ∈ g.nodes) := by
  intro fuel
  induction fuel with
  | zero =>
    intro seen x hx p hp
    simp only [pathsFrom, List.mem_singleton] at hp
    subst hp
    simp [hx]
  | succ fuel ih =>
    intro seen x hx p hp
    simp only [pathsFrom, List.mem_cons, List.mem_flatMap, List.mem_map,
      List.mem_filter, decide_eq_true_eq] at hp
    rcases hp with rfl | ⟨y, ⟨hy, hyseen⟩, q, hq, rfl⟩
    · simp [hx]
    · obtain ⟨hyn, hadj⟩ := mem_neighbors.1 hy
      have hyseen2 : ¬ y ∈ x :: seen := fun h => hyseen (List.mem_cons.1 h)
      obtain ⟨hhead, hnd, hchain, hseen, htail⟩ := ih (x :: seen) y hyseen2 q hq
      refine ⟨rfl, ?_, ?_, ?_, ?_⟩
      · refine List.nodup_cons.2 ⟨fun hxq => ?_, hnd⟩
        exact hseen x hxq (List.mem_cons_self _ _)
      · cases q with
        | nil => simp
        | cons a t =>
          have : a = y := by simpa using hhead
          subst this
          exact List.chain'_cons.2 ⟨hadj, hchain⟩
      · intro z hz
        rcases List.mem_cons.1 hz with rfl | hz
        · exact hx
        · exact fun hzs => hseen z hz (List.mem_cons_of_mem _ hzs)
      · intro z hz
        simp only [List.tail_cons] at hz
        cases q with
        | nil => cases hz
        | cons a t =>
          have : a = y := by simpa using hhead
          subst this
          rcases List.mem_cons.1 hz with rfl | hz
          · exact hyn
          · exact htail z hz

theorem pathsFrom_complete {g : Graph} :
    ∀ (p : List Nat) (fuel : Nat) (seen : List Nat) (x : Nat),
      p.head? = some x → p.Nodup → p.Chain' (Adj g) →
      (∀ y ∈ p, ¬ y ∈ seen) → (∀ y ∈ p.tail, y ∈ g.nodes) →
      p.length ≤ fuel + 1 → p ∈ pathsFrom g fuel seen x := by
  intro p
  induction p with
  | nil => intro fuel seen x h; cases h
  | cons a t ih =>
    intro fuel seen x hhead hnd hchain hseen htail hlen
    have hax : a = x := by simpa using hhead
    subst hax
    cases t with
    | nil =>
      cases fuel with
      | zero => simp [pathsFrom]
      | succ fuel => simp [pathsFrom]
    | cons b t2 =>
      cases fuel with
      | zero => simp at hlen
      | succ fuel =>
        simp only [pathsFrom, List.mem_cons, List.mem_flatMap, List.mem_map,
          List.mem_filter, decide_eq_true_eq]
        refine .inr ⟨b, ⟨?_, ?_⟩, b :: t2, ?_, rfl⟩
        · refine mem_neighbors.2 ⟨htail b (by simp), (List.chain'_cons.1 hchain).1⟩
        · intro hb
          rcases hb with rfl | hb
          · exact (List.nodup_cons.1 hnd).1 (by simp)
          · exact hseen b (by simp) hb
        · refine ih fuel (a :: seen) b rfl (List.nodup_cons.1 hnd).2
            (List.chain'_cons.1 hchain).2 ?_ ?_ (by simpa using hlen)
          · intro y hy
            intro hys
            rcases List.mem_cons.1 hys with rfl | hys
            · exact (List.nodup_cons.1 hnd).1 hy
            · exact hseen y (List.mem_cons_of_mem _ hy) hys
          · intro y hy
            exact htail y (List.mem_cons_of_mem _ hy)

/-- Membership in the candidate list of the path search. -/
def IsCand (g : Graph) (a : Nat) (p : List Nat) : Prop :=
  p.head? = some a ∧ p.Nodup ∧ p.Chain' (Adj g) ∧
    (∀ y ∈ p.tail, y ∈ g.nodes) ∧ 2 ≤ p.length

theorem length_le_of_nodup_tail {g : Graph} {p : List Nat}
    (hnd : p.Nodup) (htail : ∀ y ∈ p.tail, y ∈ g.nodes) :
    p.length ≤ g.nodes.length + 1 := by
  cases p with
  | nil => simp
  | cons a t =>
    have hsub : t ⊆ g.nodes := fun y hy => htail y hy
    have hndt : t.Nodup := (List.nodup_cons.1 hnd).2
    have : t.length ≤ g.nodes.length := by
      classical
      calc t.length = t.toFinset.card := (List.toFinset_card_of_nodup hndt).symm
        _ ≤ g.nodes.toFinset.card := by
              apply Finset.card_le_card
              intro y hy
              exact List.mem_toFinset.2 (hsub (List.mem_toFinset.1 hy))
        _ ≤ g.nodes.length := g.nodes.toFinset_card_le
    simpa using Nat.succ_le_succ this

theorem mem_simple_iff {g : Graph} {a : Nat} {p : List Nat} :
    p ∈ (pathsFrom g g.nodes.length [] a).filter (fun p => decide (2 ≤ p.length)) ↔
      IsCand g a p := by
  constructor
  · intro hp
    simp only [List.mem_filter, decide_eq_true_eq] at hp
    obtain ⟨hp, hlen⟩ := hp
    obtain ⟨h1, h2, h3, _, h5⟩ :=
      pathsFrom_sound g.nodes.length [] a (by simp) p hp
    exact ⟨h1, h2, h3, h5, hlen⟩
  · rintro ⟨h1, h2, h3, h4, h5⟩
    simp only [List.mem_filter, decide_eq_true_eq]
    refine ⟨pathsFrom_complete p g.nodes.length [] a h1 h2 h3 (by simp) h4 ?_, h5⟩
    exact length_le_of_nodup_tail h2 h4

/-- Membership in the closed-walk part of the candidate list: `p` is a
duplicate-free path from `a` of between two and `node_count - 1` entries,
closed by one more edge back into `a`. -/
def IsCycleCand (g : Graph) (a : Nat) (p : List Nat) : Prop :=
  ∃ q, p = q ++ [a] ∧ q.head? = some a ∧ q.Nodup ∧ p.Chain' (Adj g) ∧
    (∀ y ∈ q.tail, y ∈ g.nodes) ∧ 2 ≤ q.length ∧ q.length + 1 ≤ g.nodes.length

theorem mem_cyclePaths_iff {g : Graph} {a : Nat} {p : List Nat} :
    p ∈ cyclePaths g a ↔ IsCycleCand g a p := by
  constructor
  · intro hp
    simp only [cyclePaths, List.mem_map] at hp
    obtain ⟨q, hqf, hpe⟩ := hp
    rw [List.mem_filter] at hqf
    obtain ⟨hq, hcond⟩ := hqf
    rw [Bool.and_eq_true, Bool.and_eq_true] at hcond
    obtain ⟨⟨hql, hqlen⟩, hclose⟩ := hcond
    rw [decide_eq_true_eq] at hql hqlen
    obtain ⟨hhead, hnd, hchain, _, htail⟩ :=
      pathsFrom_sound g.nodes.length [] a (by simp) q hq
    have hqne : q ≠ [] := by
      intro h0
      rw [h0] at hql
      simp at hql
    obtain ⟨l, hl⟩ : ∃ l, q.getLast? = some l :=
      ⟨q.getLast hqne, List.getLast?_eq_getLast q hqne⟩
    have hadjla : Adj g l a := by
      simp only [closesTo, hl, decide_eq_true_eq] at hclose
      exact hclose
    rw [← hpe]
    refine ⟨q, rfl, hhead, hnd, ?_, htail, hql, hqlen⟩
    refine List.chain'_append.2 ⟨hchain, List.chain'_singleton a, ?_⟩
    intro x hx y hy
    rw [hl] at hx
    have hxl : l = x := by simpa using hx
    have hya : a = y := by simpa using hy
    rw [← hxl, ← hya]
    exact hadjla
  · rintro ⟨q, rfl, hhead, hnd, hchainp, htail, hql, hqlen⟩
    have hqne : q ≠ [] := by
      intro h0
      rw [h0] at hql
      simp at hql
    obtain ⟨l, hl⟩ : ∃ l, q.getLast? = some l :=
      ⟨q.getLast hqne, List.getLast?_eq_getLast q hqne⟩
    have hchainq : q.Chain' (Adj g) := (List.chain'_append.1 hchainp).1
    have hadjla : Adj g l a := by
      refine (List.chain'_append.1 hchainp).2.2 l ?_ a rfl
      rw [hl]
      rfl
    simp only [cyclePaths, List.mem_map]
    refine ⟨q, ?_, rfl⟩
    rw [List.mem_filter]
    refine ⟨?_, ?_⟩
    · exact pathsFrom_complete q g.nodes.length [] a hhead hnd hchainq (by simp)
        htail (by omega)
    · rw [Bool.and_eq_true, Bool.and_eq_true]
      refine ⟨⟨decide_eq_true hql, decide_eq_true hqlen⟩, ?_⟩
      simp only [closesTo, hl]
      exact decide_eq_true hadjla

theorem mem_candidates_iff {g : Graph} {a : Nat} {p : List Nat} :
    p ∈ candidates g a ↔ IsCand g a p ∨ IsCycleCand g a p := by
  simp only [candidates, List.mem_append]
  exact or_congr mem_simple_iff mem_cyclePaths_iff

theorem IsCand.cand_parts {g : Graph} {a : Nat} {p : List Nat} (h : IsCand g a p) :
    ∃ w t, p = a :: w :: t ∧ Adj g a w ∧ w ≠ a ∧ w ∈ g.nodes := by
  obtain ⟨h1, h2, h3, h4, h5⟩ := h
  cases p with
  | nil => cases h1
  | cons x t =>
    have : x = a := by simpa using h1
    subst this
    cases t with
    | nil => simp at h5
    | cons w t2 =>
      refine ⟨w, t2, rfl, (List.chain'_cons.1 h3).1, ?_, h4 w (by simp)⟩
      intro hwa
      subst hwa
      exact (List.nodup_cons.1 h2).1 (by simp)

theorem IsCycleCand.cycle_parts {g : Graph} {a : Nat} {p : List Nat}
    (h : IsCycleCand g a p) :
    ∃ w t, p = a :: w :: t ∧ Adj g a w ∧ w ≠ a ∧ w ∈ g.nodes ∧
      p.getLast? = some a := by
  obtain ⟨q, hpq, hhead, hnd, hchainp, htail, hql, _⟩ := h
  cases q with
  | nil => cases hhead
  | cons x t =>
    have hxa : x = a := by simpa using hhead
    cases t with
    | nil => simp at hql
    | cons w t2 =>
      have heq : p = a :: w :: (t2 ++ [a]) := by
        rw [hpq, ← hxa]
        simp
      refine ⟨w, t2 ++ [a], heq, ?_, ?_, ?_, ?_⟩
      · rw [heq] at hchainp
        exact (List.chain'_cons.1 hchainp).1
      · intro hwa
        refine (List.nodup_cons.1 hnd).1 ?_
        rw [hxa, ← hwa]
        simp
      · exact htail w (by simp)
      · rw [hpq]
        exact getLast?_append_ne (by simp) _

theorem cand_shape {g : Graph} {a : Nat} {p : List Nat}
    (h : p ∈ candidates g a) :
    ∃ w t, p = a :: w :: t ∧ Adj g a w ∧ w ≠ a ∧ w ∈ g.nodes := by
  rcases mem_candidates_iff.1 h with h2 | h2
  · exact h2.cand_parts
  · obtain ⟨w, t, h1, h3, h4, h5, _⟩ := h2.cycle_parts
    exact ⟨w, t, h1, h3, h4, h5⟩

theorem cand_length_two {g : Graph} {a : Nat} {p : List Nat}
    (h : p ∈ candidates g a) : 2 ≤ p.length := by
  obtain ⟨w, t, h1, _⟩ := cand_shape h
  rw [h1]
  simp

/-! ### The max-by-key folds and selector validity -/

theorem chooseBy_go {keep : Nat → Nat → Bool}
    (hk1 : ∀ a b, keep a b = true → b ≤ a)
    (hk2 : ∀ a b, keep a b = false → a ≤ b) :
    ∀ (l : List (List Nat)) (c p : List Nat),
      l.foldl
        (fun acc p =>
          match acc with
          | none => some p
          | some q => if keep p.length q.length then some p else some q)
        (some c) = some p →
      (p = c ∨ p ∈ l) ∧ c.length ≤ p.length ∧ ∀ q ∈ l, q.length ≤ p.length := by
  intro l
  induction l with
  | nil =>
    intro c p h
    simp only [List.foldl_nil, Option.some.injEq] at h
    subst h
    exact ⟨.inl rfl, le_refl _, by simp⟩
  | cons a t ih =>
    intro c p h
    simp only [List.foldl_cons] at h
    by_cases hk : keep a.length c.length = true
    · rw [if_pos hk] at h
      obtain ⟨hmem, hle, hall⟩ := ih a p h
      refine ⟨?_, ?_, ?_⟩
      · rcases hmem with rfl | hmem
        · exact .inr (by simp)
        · exact .inr (List.mem_cons_of_mem _ hmem)
      · exact le_trans (hk1 _ _ hk) hle
      · intro q hq
        rcases List.mem_cons.1 hq with rfl | hq
        · exact hle
        · exact hall q hq
    · rw [if_neg hk] at h
      obtain ⟨hmem, hle, hall⟩ := ih c p h
      refine ⟨?_, hle, ?_⟩
      · rcases hmem with rfl | hmem
        · exact .inl rfl
        · exact .inr (List.mem_cons_of_mem _ hmem)
      · intro q hq
        rcases List.mem_cons.1 hq with rfl | hq
        · exact le_trans (hk2 _ _ (Bool.eq_false_iff.2 hk)) hle
        · exact hall q hq

theorem chooseBy_none {keep : Nat → Nat → Bool} :
    ∀ {l : List (List Nat)}, chooseBy keep l = none → l = [] := by
  intro l h
  cases l with
  | nil => rfl
  | cons a t =>
    exfalso
    simp only [chooseBy, List.foldl_cons] at h
    have : ∀ (t : List (List Nat)) (c : List Nat),
        t.foldl
          (fun acc p =>
            match acc with
            | none => some p
            | some q => if keep p.length q.length then some p else some q)
          (some c) ≠ none := by
      intro t
      induction t with
      | nil => intro c; simp
      | cons b t2 ih =>
        intro c
        simp only [List.foldl_cons]
        by_cases hk : keep b.length c.length = true
        · rw [if_pos hk]; exact ih b
        · rw [if_neg hk]; exact ih c
    exact this t a h

theorem chooseBy_spec {keep : Nat → Nat → Bool}
    (hk1 : ∀ a b, keep a b = true → b ≤ a)
    (hk2 : ∀ a b, keep a b = false → a ≤ b)
    {l : List (List Nat)} {p : List Nat} (h : chooseBy keep l = some p) :
    p ∈ l ∧ ∀ q ∈ l, q.length ≤ p.length := by
  cases l with
  | nil => cases h
  | cons a t =>
    simp only [chooseBy, List.foldl_cons] at h
    obtain ⟨hmem, hle, hall⟩ := chooseBy_go hk1 hk2 t a p h
    refine ⟨?_, ?_⟩
    · rcases hmem with rfl | hmem
      · simp
      · exact List.mem_cons_of_mem _ hmem
    · intro q hq
      rcases List.mem_cons.1 hq with rfl | hq
      · exact hle
      · exact hall q hq

theorem lastMaxBy_spec {l : List (List Nat)} {p : List Nat}
    (h : lastMaxBy l = some p) : p ∈ l ∧ ∀ q ∈ l, q.length ≤ p.length := by
  refine chooseBy_spec ?_ ?_ h
  · intro a b hab; exact of_decide_eq_true hab
  · intro a b hab
    have := of_decide_eq_false hab
    omega

theorem candidates_getLast_mem {g : Graph} {a : Nat} {p : List Nat}
    (ha : a ∈ g.nodes) (h : p ∈ candidates g a) :
    ∃ t, p.getLast? = some t ∧ t ∈ g.nodes := by
  rcases mem_candidates_iff.1 h with h | h
  case inr =>
    obtain ⟨_, _, _, _, _, _, hlast⟩ := h.cycle_parts
    exact ⟨a, hlast, ha⟩
  obtain ⟨w, t2, rfl, _, _, _⟩ := h.cand_parts
  have hmem : (a :: w :: t2).getLast (by simp) ∈ w :: t2 := by
    have h1 : (a :: w :: t2).getLast (by simp) = (w :: t2).getLast (by simp) := by
      simp [List.getLast_cons]
    rw [h1]
    exact List.getLast_mem _
  refine ⟨(a :: w :: t2).getLast (by simp), ?_, ?_⟩
  · exact List.getLast?_eq_getLast _ (by simp)
  · exact h.2.2.2.1 _ hmem

theorem canonicalSel_valid : ValidSel canonicalSel := by
  intro g a ha
  constructor
  · intro p hp
    obtain ⟨hmem, hmax⟩ := lastMaxBy_spec hp
    simp only [List.mem_filterMap] at hmem
    obtain ⟨t, _, hbest⟩ := hmem
    obtain ⟨hpmem, _⟩ := lastMaxBy_spec hbest
    have hpc : p ∈ candidates g a := (List.mem_filter.1 hpmem).1
    refine ⟨hpc, fun q hq => ?_⟩
    obtain ⟨tq, htq, htqn⟩ := candidates_getLast_mem ha hq
    have hqlist : q ∈ (candidates g a).filter (fun p => decide (p.getLast? = some tq)) :=
      List.mem_filter.2 ⟨hq, by simp [htq]⟩
    obtain ⟨b, hb⟩ : ∃ b, targetBest g a tq = some b := by
      cases hbq : targetBest g a tq with
      | none =>
        exfalso
        simp only [targetBest, lastMaxBy] at hbq
        have := chooseBy_none hbq
        rw [this] at hqlist
        cases hqlist
      | some b => exact ⟨b, rfl⟩
    obtain ⟨_, hmaxb⟩ := lastMaxBy_spec hb
    have hble : b.length ≤ p.length := by
      refine hmax b (List.mem_filterMap.2 ⟨tq, htqn, hb⟩)
    exact le_trans (hmaxb q hqlist) hble
  · intro hnone
    by_contra hne
    obtain ⟨q, hq⟩ : ∃ q, q ∈ candidates g a := by
      cases hc : candidates g a with
      | nil => exact absurd hc hne
      | cons x l => exact ⟨x, by simp [hc]⟩
    obtain ⟨tq, htq, htqn⟩ := candidates_getLast_mem ha hq
    have hqlist : q ∈ (candidates g a).filter (fun p => decide (p.getLast? = some tq)) :=
      List.mem_filter.2 ⟨hq, by simp [htq]⟩
    obtain ⟨b, hb⟩ : ∃ b, targetBest g a tq = some b := by
      cases hbq : targetBest g a tq with
      | none =>
        exfalso
        simp only [targetBest, lastMaxBy] at hbq
        have := chooseBy_none hbq
        rw [this] at hqlist
        cases hqlist
      | some b => exact ⟨b, rfl⟩
    have hbl : b ∈ g.nodes.filterMap (fun t => targetBest g a t) :=
      List.mem_filterMap.2 ⟨tq, htqn, hb⟩
    simp only [canonicalSel, lastMaxBy] at hnone
    have := chooseBy_none hnone
    rw [this] at hbl
    cases hbl

/-! ### Chains and reachability -/

theorem chain_head_reach {R : Nat → Nat → Prop} :
    ∀ (p : List Nat) (a : Nat), p.Chain' R → p.head? = some a →
      ∀ x ∈ p, Relation.ReflTransGen R a x := by
  intro p
  induction p with
  | nil => intro a _ h; cases h
  | cons b t ih =>
    intro a hchain hhead x hx
    have hba : b = a := by simpa using hhead
    subst hba
    rcases List.mem_cons.1 hx with rfl | hx
    · exact .refl
    · cases t with
      | nil => cases hx
      | cons c t2 =>
        have hstep : Relation.ReflTransGen R b c :=
          Relation.ReflTransGen.single (List.chain'_cons.1 hchain).1
        exact hstep.trans (ih c (List.chain'_cons.1 hchain).2 rfl x hx)

theorem reach_symm {g : Graph} {x y : Nat} (h : Reach g x y) : Reach g y x := by
  induction h with
  | refl => exact .refl
  | tail _ hadj ih =>
    exact Relation.ReflTransGen.trans (Relation.ReflTransGen.single hadj.symm) ih

/-! ### Breadth-first search: soundness -/

theorem bfsLoop_sound {g : Graph} {tgt src : Nat} :
    ∀ (fuel : Nat) (queue : List (List Nat)) (seen : List Nat),
      (∀ q ∈ queue, q ≠ [] ∧ q.getLast? = some src ∧ q.reverse.Chain' (Adj g) ∧
        ∀ y ∈ q, y = src ∨ y ∈ g.nodes) →
      ∀ r, bfsLoop g tgt fuel queue seen = some r →
        r.head? = some src ∧ r.getLast? = some tgt ∧ r.Chain' (Adj g) ∧
          ∀ y ∈ r, y = src ∨ y ∈ g.nodes := by
  intro fuel
  induction fuel with
  | zero => intro queue seen _ r h; cases h
  | succ fuel ih =>
    intro queue seen hq r h
    cases queue with
    | nil => cases h
    | cons p rest =>
      obtain ⟨hpne, hplast, hpchain, hpmem⟩ := hq p (by simp)
      cases p with
      | nil => exact absurd rfl hpne
      | cons cur ptail =>
        simp only [bfsLoop] at h
        by_cases hcur : cur = tgt
        · rw [if_pos hcur] at h
          have hr : (cur :: ptail).reverse = r := Option.some_inj.1 h
          subst hr
          refine ⟨?_, ?_, hpchain, ?_⟩
          · rw [List.head?_reverse]; exact hplast
          · rw [List.getLast?_reverse]; simp [hcur]
          · intro y hy
            exact hpmem y (List.mem_reverse.1 hy)
        · rw [if_neg hcur] at h
          refine ih _ _ ?_ r h
          intro q hql
          rcases List.mem_append.1 hql with hql | hql
          · exact hq q (List.mem_cons_of_mem _ hql)
          · obtain ⟨y, hy, rfl⟩ := List.mem_map.1 hql
            have hyn : y ∈ g.nodes ∧ Adj g cur y := by
              have := List.mem_filter.1 hy
              exact mem_neighbors.1 this.1
            refine ⟨by simp, ?_, ?_, ?_⟩
            · rw [List.getLast?_cons_cons]
              exact hplast
            · rw [List.reverse_cons]
              rw [List.chain'_append]
              refine ⟨hpchain, List.chain'_singleton _, ?_⟩
              intro a ha b hb
              have hb2 : y = b := by simpa using hb
              have ha2 : cur = a := by
                rw [List.getLast?_reverse] at ha
                simpa using ha
              rw [← hb2, ← ha2]
              exact hyn.2
            · intro z hz
              rcases List.mem_cons.1 hz with rfl | hz
              · exact .inr hyn.1
              · exact hpmem z hz

theorem bfs_sound {g : Graph} {src tgt : Nat} {r : List Nat}
    (h : bfs g src tgt = some r) :
    r.head? = some src ∧ r.getLast? = some tgt ∧ r.Chain' (Adj g) ∧
      ∀ y ∈ r, y = src ∨ y ∈ g.nodes := by
  refine bfsLoop_sound (g.nodes.length + 1) [[src]] [src] ?_ r h
  intro q hq
  have hq2 : q = [src] := by simpa using hq
  subst hq2
  refine ⟨by simp, by simp, by simp, ?_⟩
  intro y hy
  exact .inl (by simpa using hy)

theorem bfs_self (g : Graph) (s : Nat) : bfs g s s = some [s] := by
  simp [bfs, bfsLoop]

/-! ### Breadth-first search: completeness -/

/-- A node set closed under taking in-graph neighbors. -/
def closedUnder (g : Graph) (s : List Nat) : Prop :=
  ∀ x ∈ s, ∀ y, y ∈ g.nodes → Adj g x y → y ∈ s

theorem bfsLoop_complete_aux {g : Graph} {tgt : Nat} (hnodes : g.nodes.Nodup) :
    ∀ (fuel : Nat) (queue : List (List Nat)) (seen : List Nat),
      seen.Nodup →
      (∀ q ∈ queue, ∃ c t, q = c :: t ∧ c ∈ seen) →
      (∀ x ∈ seen, (∃ q ∈ queue, q.head? = some x) ∨
        ∀ y, y ∈ g.nodes → Adj g x y → y ∈ seen) →
      queue.length + (g.nodes.toFinset \ seen.toFinset).card ≤ fuel →
      (tgt ∈ seen → ∃ q ∈ queue, q.head? = some tgt) →
      bfsLoop g tgt fuel queue seen = none →
      ∃ seen2, seen ⊆ seen2 ∧ ¬ tgt ∈ seen2 ∧ closedUnder g seen2 := by
  intro fuel
  induction fuel with
  | zero =>
    intro queue seen _ _ hclosed hcount htgt _
    have hqe : queue = [] := by
      cases queue with
      | nil => rfl
      | cons a t => simp at hcount
    subst hqe
    refine ⟨seen, fun x hx => hx, ?_, ?_⟩
    · intro hts
      obtain ⟨q, hql, _⟩ := htgt hts
      cases hql
    · intro x hx y hyn hadj
      rcases hclosed x hx with ⟨q, hql, _⟩ | hcl
      · cases hql
      · exact hcl y hyn hadj
  | succ fuel ih =>
    intro queue seen hnd hq hclosed hcount htgt hnone
    cases queue with
    | nil =>
      refine ⟨seen, fun x hx => hx, ?_, ?_⟩
      · intro hts
        obtain ⟨q, hql, _⟩ := htgt hts
        cases hql
      · intro x hx y hyn hadj
        rcases hclosed x hx with ⟨q, hql, _⟩ | hcl
        · cases hql
        · exact hcl y hyn hadj
    | cons p rest =>
      obtain ⟨c, t, rfl, hc⟩ := hq p (by simp)
      simp only [bfsLoop] at hnone
      by_cases hcur : c = tgt
      · rw [if_pos hcur] at hnone
        cases hnone
      · rw [if_neg hcur] at hnone
        have hnextmem : ∀ y ∈ (neighbors g c).filter (fun y => decide (¬ y ∈ seen)),
            y ∈ g.nodes ∧ Adj g c y ∧ ¬ y ∈ seen := by
          intro y hy
          obtain ⟨hy1, hy2⟩ := List.mem_filter.1 hy
          obtain ⟨hyn, hadj⟩ := mem_neighbors.1 hy1
          exact ⟨hyn, hadj, of_decide_eq_true hy2⟩
        have hnextnd : ((neighbors g c).filter (fun y => decide (¬ y ∈ seen))).Nodup :=
          (hnodes.filter _).filter _
        set next := (neighbors g c).filter (fun y => decide (¬ y ∈ seen)) with hnext
        have hsubA : next.toFinset ⊆ g.nodes.toFinset \ seen.toFinset := by
          intro y hy
          have hy2 := hnextmem y (List.mem_toFinset.1 hy)
          exact Finset.mem_sdiff.2 ⟨List.mem_toFinset.2 hy2.1,
            fun hys => hy2.2.2 (List.mem_toFinset.1 hys)⟩
        have hcardnext : next.toFinset.card = next.length :=
          List.toFinset_card_of_nodup hnextnd
        have hcard2 : (g.nodes.toFinset \ (seen ++ next).toFinset).card
            = (g.nodes.toFinset \ seen.toFinset).card - next.length := by
          have hset : g.nodes.toFinset \ (seen.toFinset ∪ next.toFinset)
              = (g.nodes.toFinset \ seen.toFinset) \ next.toFinset := by
            ext a
            simp only [Finset.mem_sdiff, Finset.mem_union]
            tauto
          rw [List.toFinset_append, hset, Finset.card_sdiff hsubA, hcardnext]
        have hrec : ∃ seen2, seen ++ next ⊆ seen2 ∧ ¬ tgt ∈ seen2 ∧ closedUnder g seen2 := by
          refine ih (rest ++ next.map (fun y => y :: c :: t)) (seen ++ next) ?_ ?_ ?_ ?_ ?_ hnone
          · refine List.nodup_append.2 ⟨hnd, hnextnd, ?_⟩
            intro a ha hanext
            exact (hnextmem a hanext).2.2 ha
          · intro q hql
            rcases List.mem_append.1 hql with hql | hql
            · obtain ⟨c2, t2, rfl, hc2⟩ := hq q (List.mem_cons_of_mem _ hql)
              exact ⟨c2, t2, rfl, List.mem_append_left _ hc2⟩
            · obtain ⟨y, hy, rfl⟩ := List.mem_map.1 hql
              exact ⟨y, c :: t, rfl, List.mem_append_right _ hy⟩
          · intro x hx
            rcases List.mem_append.1 hx with hx | hx
            · rcases hclosed x hx with ⟨q, hql, hqh⟩ | hcl
              · rcases List.mem_cons.1 hql with rfl | hql
                · have hxc : c = x := by simpa using hqh
                  subst hxc
                  refine .inr ?_
                  intro y hyn hadj
                  by_cases hys : y ∈ seen
                  · exact List.mem_append_left _ hys
                  · refine List.mem_append_right _ ?_
                    rw [hnext]
                    exact List.mem_filter.2 ⟨mem_neighbors.2 ⟨hyn, hadj⟩, by simpa using hys⟩
                · exact .inl ⟨q, List.mem_append_left _ hql, hqh⟩
              · exact .inr fun y hyn hadj => List.mem_append_left _ (hcl y hyn hadj)
            · exact .inl ⟨x :: c :: t,
                List.mem_append_right _ (List.mem_map.2 ⟨x, hx, rfl⟩), rfl⟩
          · have hranknext : next.length ≤ (g.nodes.toFinset \ seen.toFinset).card := by
              rw [← hcardnext]
              exact Finset.card_le_card hsubA
            simp only [List.length_append, List.length_map, List.length_cons] at hcount ⊢
            omega
          · intro hts
            rcases List.mem_append.1 hts with hts | hts
            · obtain ⟨q, hql, hqh⟩ := htgt hts
              rcases List.mem_cons.1 hql with rfl | hql
              · exfalso
                exact hcur (by simpa using hqh)
              · exact ⟨q, List.mem_append_left _ hql, hqh⟩
            · exact ⟨tgt :: c :: t,
                List.mem_append_right _ (List.mem_map.2 ⟨tgt, hts, rfl⟩), rfl⟩
        obtain ⟨seen2, hs2, ht2, hc2⟩ := hrec
        exact ⟨seen2, fun a ha => hs2 (List.mem_append_left _ ha), ht2, hc2⟩

theorem bfs_complete {g : Graph} (hwf : WF g) {src tgt : Nat}
    (hreach : Reach g src tgt) : ∃ r, bfs g src tgt = some r := by
  cases hb : bfs g src tgt with
  | some r => exact ⟨r, rfl⟩
  | none =>
    exfalso
    unfold bfs at hb
    have hq0 : ∀ q ∈ [[src]], ∃ c t, q = c :: t ∧ c ∈ [src] := by
      intro q hq
      exact ⟨src, [], by simpa using hq, by simp⟩
    have hclosed0 : ∀ x ∈ [src], (∃ q ∈ [[src]], q.head? = some x) ∨
        ∀ y, y ∈ g.nodes → Adj g x y → y ∈ [src] := by
      intro x hx
      have hxs : x = src := List.mem_singleton.1 hx
      exact .inl ⟨[src], by simp, by simp [hxs]⟩
    have hcount0 : ([[src]] : List (List Nat)).length +
        (g.nodes.toFinset \ ([src] : List Nat).toFinset).card ≤ g.nodes.length + 1 := by
      have h1 : (g.nodes.toFinset \ ([src] : List Nat).toFinset).card
          ≤ g.nodes.toFinset.card := Finset.card_le_card (Finset.sdiff_subset)
      have h2 : g.nodes.toFinset.card ≤ g.nodes.length := g.nodes.toFinset_card_le
      simp only [List.length_singleton]
      omega
    have htgt0 : tgt ∈ [src] → ∃ q ∈ [[src]], q.head? = some tgt := by
      intro hts
      have hts2 : tgt = src := List.mem_singleton.1 hts
      exact ⟨[src], by simp, by simp [hts2]⟩
    obtain ⟨seen2, hsub, htgt2, hclosed2⟩ := bfsLoop_complete_aux hwf.1
      (g.nodes.length + 1) [[src]] [src] (by simp) hq0 hclosed0 hcount0 htgt0 hb
    have hall : ∀ x, Reach g src x → x ∈ seen2 := by
      intro x hx
      induction hx with
      | refl => exact hsub (by simp)
      | tail _ hadj ihx =>
        exact hclosed2 _ ihx _ (adj_mem_right hwf hadj) hadj
    exact htgt2 (hall tgt hreach)

/-! ### The reduction loop -/

theorem mem_reduceGraph {g : Graph} {s : Nat} {full : List Nat} {x : Nat} :
    x ∈ (reduceGraph g s full).nodes ↔ x ∈ g.nodes ∧ (¬ x ∈ full ∨ x = s) := by
  simp [reduceGraph, mem_filterNodes_nodes]

theorem wf_reduceGraph {g : Graph} (hwf : WF g) (s : Nat) (full : List Nat) :
    WF (reduceGraph g s full) :=
  wf_filterNodes hwf _

theorem reach_reduceGraph {g : Graph} {s : Nat} {full : List Nat} {x y : Nat}
    (h : Reach (reduceGraph g s full) x y) : Reach g x y :=
  reach_filterNodes h

theorem adj_reduceGraph_of {g : Graph} {s : Nat} {full : List Nat} {x y : Nat}
    (h : Adj g x y) (hx : ¬ x ∈ full ∨ x = s) (hy : ¬ y ∈ full ∨ y = s) :
    Adj (reduceGraph g s full) x y := by
  refine adj_filterNodes_of h ?_ ?_ <;> simp only [Bool.or_eq_true, decide_eq_true_eq]
  · exact hx
  · exact hy

theorem adj_reduceGraph {g : Graph} {s : Nat} {full : List Nat} {x y : Nat}
    (h : Adj (reduceGraph g s full) x y) : Adj g x y :=
  adj_filterNodes h

theorem reduceGraph_lt {g : Graph} {s : Nat} {full : List Nat} {w : Nat}
    (hwn : w ∈ g.nodes) (hwf : w ∈ full) (hws : w ≠ s) :
    (reduceGraph g s full).nodes.length < g.nodes.length := by
  refine filterNodes_length_lt hwn ?_
  simp [hwf, hws]

/-- The invariants established by the reduction loop about its flat output. -/
structure LoopSpec (g : Graph) (s : Nat) (res : List Nat) : Prop where
  subset : ∀ x ∈ res, x ∈ g.nodes
  reach : ∀ x ∈ res, Reach g s x
  lastS : res = [] ∨ res.getLast? = some s
  nbrs : ∀ w, w ∈ g.nodes → Adj g s w → w ≠ s → w ∈ res
  headAdj : res = [] ∨ ∃ w t, res = w :: t ∧ Adj g s w ∧ w ≠ s
  iso : (∀ w, ¬ (w ∈ g.nodes ∧ Adj g s w ∧ w ≠ s)) → res = []

theorem two_path_cand {g : Graph} {s w : Nat} (hwn : w ∈ g.nodes)
    (hadj : Adj g s w) (hws : w ≠ s) : IsCand g s [s, w] := by
  refine ⟨rfl, ?_, ?_, ?_, by simp⟩
  · simp only [List.nodup_cons, List.mem_singleton, List.not_mem_nil,
      not_false_eq_true, List.nodup_nil, and_true]
    exact fun h => hws h.symm
  · exact List.chain'_cons.2 ⟨hadj, List.chain'_singleton _⟩
  · intro y hy
    have : y = w := by simpa using hy
    subst this
    exact hwn

/-- What one loop iteration extracts from any candidate the search keeps:
the consumed nodes (trunk without the anchor, plus the return path without
its head) form a nonempty list of in-graph nodes reachable from the anchor,
starting at a neighbor of the anchor distinct from it and ending at the
anchor.  A simple-path candidate ends away from the anchor and the return
path is found by search; a closed-walk candidate already ends at the
anchor, whose return path is the trivial one. -/
theorem search_step_facts {g : Graph} (hwf : WF g) {s : Nat} (hs : s ∈ g.nodes)
    {p : List Nat} (hmem : p ∈ candidates g s) :
    ∃ w l r, Adj g s w ∧ w ≠ s ∧ w ∈ g.nodes ∧
      (p.drop 1).getLast? = some l ∧ bfs g l s = some r ∧
      (∃ t2, p.drop 1 ++ r.drop 1 = w :: t2) ∧
      (∀ x ∈ p.drop 1 ++ r.drop 1, x ∈ g.nodes) ∧
      (∀ x ∈ p.drop 1 ++ r.drop 1, Reach g s x) ∧
      (p.drop 1 ++ r.drop 1).getLast? = some s := by
  rcases mem_candidates_iff.1 hmem with hcand | hcyc
  · obtain ⟨w, t, hpshape, hadjsw, hwns, hwn⟩ := hcand.cand_parts
    have htaileq : p.drop 1 = w :: t := by rw [hpshape]; rfl
    have hsnotail : ¬ s ∈ w :: t := by
      have := hcand.2.1
      rw [hpshape] at this
      exact (List.nodup_cons.1 this).1
    have htailsub : ∀ y ∈ w :: t, y ∈ g.nodes := by
      intro y hy
      have := hcand.2.2.2.1
      rw [hpshape] at this
      exact this y hy
    obtain ⟨l, hl⟩ : ∃ l, (w :: t).getLast? = some l :=
      ⟨(w :: t).getLast (by simp), List.getLast?_eq_getLast _ (by simp)⟩
    have hlmem : l ∈ w :: t := by
      obtain ⟨hne, heq⟩ := List.mem_getLast?_eq_getLast (Option.mem_def.2 hl)
      rw [heq]
      exact List.getLast_mem hne
    have hln : l ∈ g.nodes := htailsub l hlmem
    have hlns : l ≠ s := fun h => hsnotail (h ▸ hlmem)
    have hreach_sl : Reach g s l := by
      refine chain_head_reach p s hcand.2.2.1 hcand.1 l ?_
      rw [hpshape]
      exact List.mem_cons_of_mem _ hlmem
    obtain ⟨r, hr⟩ := bfs_complete hwf (reach_symm hreach_sl)
    obtain ⟨hrhead, hrlast, hrchain, hrmem⟩ := bfs_sound hr
    have hrmem2 : ∀ y ∈ r, y ∈ g.nodes := by
      intro y hy
      rcases hrmem y hy with rfl | hy2
      · exact hln
      · exact hy2
    obtain ⟨r2, hr2⟩ : ∃ r2, r = l :: r2 := by
      cases r with
      | nil => cases hrhead
      | cons a u =>
        have : a = l := by simpa using hrhead
        subst this
        exact ⟨u, rfl⟩
    have hr2ne : r2 ≠ [] := by
      intro h2
      subst h2
      rw [hr2] at hrlast
      have : l = s := by simpa using hrlast
      exact hlns this
    have hr2last : r2.getLast? = some s := by
      have := getLast?_append_ne hr2ne [l]
      rw [hr2] at hrlast
      rw [← this]
      simpa using hrlast
    have hrdrop : r.drop 1 = r2 := by rw [hr2]; rfl
    refine ⟨w, l, r, hadjsw, hwns, hwn, ?_, hr, ⟨t ++ r2, ?_⟩, ?_, ?_, ?_⟩
    · rw [htaileq]
      exact hl
    · rw [htaileq, hrdrop]
      simp
    · intro x hx
      rw [htaileq, hrdrop] at hx
      rcases List.mem_append.1 hx with hx | hx
      · exact htailsub x hx
      · exact hrmem2 x (by rw [hr2]; exact List.mem_cons_of_mem _ hx)
    · intro x hx
      rw [htaileq, hrdrop] at hx
      rcases List.mem_append.1 hx with hx | hx
      · refine chain_head_reach p s hcand.2.2.1 hcand.1 x ?_
        rw [hpshape]
        exact List.mem_cons_of_mem _ hx
      · have hx2 : Reach g l x := by
          refine chain_head_reach r l hrchain ?_ x ?_
          · rw [hr2]
            rfl
          · rw [hr2]
            exact List.mem_cons_of_mem _ hx
        exact hreach_sl.trans hx2
    · rw [htaileq, hrdrop, getLast?_append_ne hr2ne]
      exact hr2last
  · obtain ⟨q, hpq, hqhead, hqnd, hchainp, hqtail, hql, _⟩ := hcyc
    cases q with
    | nil => cases hqhead
    | cons x q1 =>
      have hxs : x = s := by simpa using hqhead
      cases q1 with
      | nil => simp at hql
      | cons w t0 =>
        have hpshape : p = s :: w :: (t0 ++ [s]) := by
          rw [hpq, hxs]
          simp
        have htaileq : p.drop 1 = w :: (t0 ++ [s]) := by rw [hpshape]; rfl
        have hwns : w ≠ s := by
          intro hws
          refine (List.nodup_cons.1 hqnd).1 ?_
          rw [hxs, ← hws]
          simp
        have hwn : w ∈ g.nodes := hqtail w (by simp)
        rw [hpshape] at hchainp
        have hadjsw : Adj g s w := (List.chain'_cons.1 hchainp).1
        have htlast : (w :: (t0 ++ [s])).getLast? = some s := by
          have h1 : w :: (t0 ++ [s]) = (w :: t0) ++ [s] := by simp
          rw [h1, getLast?_append_ne (by simp) _]
          rfl
        have hdropnil : (([s] : List Nat)).drop 1 = [] := rfl
        refine ⟨w, s, [s], hadjsw, hwns, hwn, ?_, bfs_self g s,
          ⟨t0 ++ [s], ?_⟩, ?_, ?_, ?_⟩
        · rw [htaileq]
          exact htlast
        · rw [htaileq, hdropnil]
          simp
        · intro y hy
          rw [htaileq, hdropnil, List.append_nil] at hy
          rcases List.mem_cons.1 hy with rfl | hy
          · exact hwn
          · rcases List.mem_append.1 hy with hy | hy
            · exact hqtail y (List.mem_cons_of_mem _ hy)
            · have hys : y = s := by simpa using hy
              rw [hys]
              exact hs
        · intro y hy
          rw [htaileq, hdropnil, List.append_nil] at hy
          refine chain_head_reach (s :: w :: (t0 ++ [s])) s hchainp rfl y ?_
          exact List.mem_cons_of_mem _ hy
        · rw [htaileq, hdropnil, List.append_nil]
          exact htlast

theorem reduceLoop_spec {sel : Graph → Nat → Option (List Nat)}
    (hsel : ValidSel sel) :
    ∀ (fuel : Nat) (g : Graph) (s : Nat), WF g → s ∈ g.nodes →
      g.nodes.length + 1 ≤ fuel →
      ∃ res, reduceLoop sel fuel g s = .ok res ∧ LoopSpec g s res := by
  intro fuel
  induction fuel with
  | zero =>
    intro g s _ _ hlen
    omega
  | succ fuel ih =>
    intro g s hwf hs hlen
    cases hp : sel g s with
    | none =>
      refine ⟨[], ?_, ?_⟩
      · simp only [reduceLoop, if_pos hs, hp]
      · have hnone := (hsel g s hs).2 hp
        have hnonbr : ∀ w, ¬ (w ∈ g.nodes ∧ Adj g s w ∧ w ≠ s) := by
          rintro w ⟨hwn, hadj, hws⟩
          have : [s, w] ∈ candidates g s :=
            mem_candidates_iff.2 (.inl (two_path_cand hwn hadj hws))
          rw [hnone] at this
          cases this
        refine ⟨by simp, by simp, .inl rfl, ?_, .inl rfl, fun _ => rfl⟩
        intro w hwn hadj hws
        exact absurd ⟨hwn, hadj, hws⟩ (hnonbr w)
    | some p =>
      have hpc : p ∈ candidates g s := ((hsel g s hs).1 p hp).1
      obtain ⟨w, l, r, hadjsw, hwns, hwn, hlast, hr, hfullshape, hfullsub,
        hfullreach, hfulllast⟩ := search_step_facts hwf hs hpc
      obtain ⟨t2, hfs⟩ := hfullshape
      have hwfull : w ∈ p.drop 1 ++ r.drop 1 := by rw [hfs]; simp
      have hlt : (reduceGraph g s (p.drop 1 ++ r.drop 1)).nodes.length
          < g.nodes.length := reduceGraph_lt hwn hwfull hwns
      have hsmem2 : s ∈ (reduceGraph g s (p.drop 1 ++ r.drop 1)).nodes :=
        mem_reduceGraph.2 ⟨hs, .inr rfl⟩
      obtain ⟨res2, heq2, hspec2⟩ := ih (reduceGraph g s (p.drop 1 ++ r.drop 1)) s
        (wf_reduceGraph hwf _ _) hsmem2 (by omega)
      refine ⟨(p.drop 1 ++ r.drop 1) ++ res2, ?_, ?_⟩
      · simp only [reduceLoop, if_pos hs, hp, hlast, hr, heq2]
      · refine ⟨?_, ?_, ?_, ?_, ?_, ?_⟩
        · intro x hx
          rcases List.mem_append.1 hx with hx | hx
          · exact hfullsub x hx
          · exact mem_reduceGraph.1 (hspec2.subset x hx) |>.1
        · intro x hx
          rcases List.mem_append.1 hx with hx | hx
          · exact hfullreach x hx
          · exact reach_reduceGraph (hspec2.reach x hx)
        · refine .inr ?_
          rcases hspec2.lastS with h2 | h2
          · rw [h2, List.append_nil]
            exact hfulllast
          · rw [getLast?_append_ne (fun hr0 => by rw [hr0] at h2; cases h2) _]
            exact h2
        · intro v hvn hadjv hvs
          by_cases hvfull : v ∈ p.drop 1 ++ r.drop 1
          · exact List.mem_append_left _ hvfull
          · refine List.mem_append_right _ ?_
            refine hspec2.nbrs v (mem_reduceGraph.2 ⟨hvn, .inl hvfull⟩) ?_ hvs
            exact adj_reduceGraph_of hadjv (.inr rfl) (.inl hvfull)
        · refine .inr ⟨w, t2 ++ res2, ?_, hadjsw, hwns⟩
          rw [hfs]
          simp
        · intro hno
          exact absurd ⟨hwn, hadjsw, hwns⟩ (hno w)

/-! ### The splice walk and the full planner -/

theorem mem_spliceSub {g0 : Graph} {res acc : List Nat} {v x : Nat} :
    x ∈ (spliceSub g0 res acc v).nodes ↔
      x ∈ g0.nodes ∧ ((¬ x ∈ res ∧ ¬ x ∈ acc) ∨ x = v) := by
  simp [spliceSub, mem_filterNodes_nodes]

theorem adj_spliceSub_of {g0 : Graph} {res acc : List Nat} {v x y : Nat}
    (h : Adj g0 x y) (hx : (¬ x ∈ res ∧ ¬ x ∈ acc) ∨ x = v)
    (hy : (¬ y ∈ res ∧ ¬ y ∈ acc) ∨ y = v) :
    Adj (spliceSub g0 res acc v) x y := by
  refine adj_filterNodes_of h ?_ ?_ <;>
    simp only [Bool.or_eq_true, Bool.and_eq_true, decide_eq_true_eq]
  · exact hx
  · exact hy

theorem spliceSub_lt {g0 : Graph} {res acc : List Nat} {v s : Nat}
    (hs : s ∈ g0.nodes) (hsres : s ∈ res) (hsv : s ≠ v) :
    (spliceSub g0 res acc v).nodes.length < g0.nodes.length := by
  refine filterNodes_length_lt hs ?_
  simp [hsres, hsv]

/-- The guarantees of a full planner run: outputs are reachable nodes, the
output together with the start is closed under adjacency, the route ends at
the start, the start is on the route as soon as it has a neighbor, an
isolated start yields the empty route, and a nonempty route begins with a
neighbor of the start. -/
structure Posts (g : Graph) (s : Nat) (out : List Nat) : Prop where
  subset : ∀ x ∈ out, x ∈ g.nodes
  reach : ∀ x ∈ out, Reach g s x
  closure : ∀ v w, (v ∈ out ∨ v = s) → Adj g v w → w ∈ g.nodes → (w ∈ out ∨ w = s)
  lastS : out ≠ [] → out.getLast? = some s
  startMem : (∃ w, w ∈ g.nodes ∧ Adj g s w ∧ w ≠ s) → s ∈ out
  iso : (∀ w, ¬ (w ∈ g.nodes ∧ Adj g s w ∧ w ≠ s)) → out = []
  headAdj : out ≠ [] → ∃ w t, out = w :: t ∧ Adj g s w ∧ w ≠ s

/-- The statement proved about `findLongestPathsWith` at a given fuel. -/
def FLStatement (sel : Graph → Nat → Option (List Nat)) (fuel : Nat) : Prop :=
  ∀ g s, WF g → s ∈ g.nodes → g.nodes.length + 1 ≤ fuel →
    ∃ out, findLongestPathsWith sel fuel g s = .ok out ∧ Posts g s out

theorem walk_spec {sel : Graph → Nat → Option (List Nat)} {fuel : Nat}
    (ihfl : FLStatement sel fuel) {g : Graph} {s : Nat}
    (hwf : WF g) (hfuel : g.nodes.length ≤ fuel)
    {res : List Nat} (hressub : ∀ x ∈ res, x ∈ g.nodes)
    (hresreach : ∀ x ∈ res, Reach g s x) (hsres : s ∈ res) :
    ∀ (rem acc visited : List Nat),
      (∃ pre, res = pre ++ rem ∧ ∀ x ∈ pre, x ∈ acc) →
      (∀ x ∈ acc, x ∈ g.nodes ∧ Reach g s x) →
      (∀ u w, (u ∈ acc ∨ u ∈ visited) → Adj g u w → w ∈ g.nodes →
        (w ∈ res ∨ w ∈ acc ∨ w = s)) →
      s ∈ visited →
      ∃ out, walkAux (findLongestPathsWith sel fuel) g res rem acc visited = .ok out ∧
        (∃ ext, out = acc ++ ext ∧ (rem ≠ [] → ext.head? = rem.head?)) ∧
        (∀ x ∈ out, x ∈ g.nodes ∧ Reach g s x) ∧
        (∀ x ∈ res, x ∈ out) ∧
        (∀ u w, (u ∈ out ∨ u ∈ visited) → Adj g u w → w ∈ g.nodes →
          (w ∈ res ∨ w ∈ out ∨ w = s)) ∧
        (rem = [] → out = acc) ∧
        (rem ≠ [] → rem.getLast? = some s → out ≠ [] ∧ out.getLast? = some s) := by
  intro rem
  induction rem with
  | nil =>
    intro acc visited hpre hacc hinv _
    refine ⟨acc, by simp [walkAux], ⟨[], by simp⟩, hacc, ?_, ?_, fun _ => rfl, ?_⟩
    · intro x hx
      obtain ⟨pre, hpre1, hpre2⟩ := hpre
      rw [List.append_nil] at hpre1
      exact hpre2 x (hpre1 ▸ hx)
    · intro u w hu hadj hwn
      rcases hinv u w hu hadj hwn with h | h | h
      · exact .inl h
      · exact .inr (.inl h)
      · exact .inr (.inr h)
    · intro h; exact absurd rfl h
  | cons v rest ih =>
    intro acc visited hpre hacc hinv hvs
    obtain ⟨pre, hpre1, hpre2⟩ := hpre
    have hvres : v ∈ res := by
      rw [hpre1]
      exact List.mem_append_right _ (by simp)
    have hvn : v ∈ g.nodes := hressub v hvres
    have hvreach : Reach g s v := hresreach v hvres
    by_cases hv : v ∈ visited
    · have hacc1 : ∀ x ∈ acc ++ [v], x ∈ g.nodes ∧ Reach g s x := by
        intro x hx
        rcases List.mem_append.1 hx with hx | hx
        · exact hacc x hx
        · have : x = v := by simpa using hx
          subst this
          exact ⟨hvn, hvreach⟩
      have hinv1 : ∀ u w, (u ∈ acc ++ [v] ∨ u ∈ visited) → Adj g u w → w ∈ g.nodes →
          (w ∈ res ∨ w ∈ acc ++ [v] ∨ w = s) := by
        intro u w hu hadj hwn
        have hu2 : u ∈ acc ∨ u ∈ visited := by
          rcases hu with hu | hu
          · rcases List.mem_append.1 hu with hu | hu
            · exact .inl hu
            · have : u = v := by simpa using hu
              subst this
              exact .inr hv
          · exact .inr hu
        rcases hinv u w hu2 hadj hwn with h | h | h
        · exact .inl h
        · exact .inr (.inl (List.mem_append_left _ h))
        · exact .inr (.inr h)
      have hpre1b : ∃ pre2, res = pre2 ++ rest ∧ ∀ x ∈ pre2, x ∈ acc ++ [v] := by
        refine ⟨pre ++ [v], by rw [hpre1]; simp, ?_⟩
        intro x hx
        rcases List.mem_append.1 hx with hx | hx
        · exact List.mem_append_left _ (hpre2 x hx)
        · exact List.mem_append_right _ hx
      obtain ⟨out, heq, ⟨ext, hext1, hext2⟩, hout1, hout2, hout3, hout4, hout5⟩ :=
        ih (acc ++ [v]) visited hpre1b hacc1 hinv1 hvs
      refine ⟨out, ?_, ⟨v :: ext, ?_, ?_⟩, hout1, hout2, ?_, ?_, ?_⟩
      · simp only [walkAux, if_pos hv]
        exact heq
      · rw [hext1]
        simp
      · intro _
        rfl
      · intro u w hu hadj hwn
        exact hout3 u w hu hadj hwn
      · intro h
        cases h
      · intro _ hlast
        cases hrest : rest with
        | nil =>
          subst hrest
          have hvs2 : v = s := by simpa using hlast
          have hout : out = acc ++ [v] := hout4 rfl
          subst hvs2
          constructor
          · rw [hout]
            simp
          · rw [hout, getLast?_append_ne (by simp) acc]
            rfl
        | cons b u2 =>
          have hrestne : rest ≠ [] := by rw [hrest]; simp
          have hlast2 : rest.getLast? = some s := by
            have := getLast?_append_ne hrestne [v]
            rw [← hlast]
            rw [← this]
            rfl
          exact hout5 hrestne hlast2
    · have hvns : v ≠ s := fun h => hv (h ▸ hvs)
      have hsub_lt : (spliceSub g res (acc ++ [v]) v).nodes.length < g.nodes.length :=
        spliceSub_lt (hressub s hsres) hsres (fun h => hvns h.symm)
      have hsubwf : WF (spliceSub g res (acc ++ [v]) v) := wf_filterNodes hwf _
      have hvsub : v ∈ (spliceSub g res (acc ++ [v]) v).nodes :=
        mem_spliceSub.2 ⟨hvn, .inr rfl⟩
      obtain ⟨outv, heqv, hpostv⟩ := ihfl (spliceSub g res (acc ++ [v]) v) v
        hsubwf hvsub (by omega)
      have houtvmem : ∀ x ∈ outv, x ∈ g.nodes ∧ Reach g s x := by
        intro x hx
        refine ⟨(mem_spliceSub.1 (hpostv.subset x hx)).1, ?_⟩
        have h2 : Reach g v x := reach_filterNodes (hpostv.reach x hx)
        exact hvreach.trans h2
      have hacc2 : ∀ x ∈ (acc ++ [v]) ++ outv, x ∈ g.nodes ∧ Reach g s x := by
        intro x hx
        rcases List.mem_append.1 hx with hx | hx
        · rcases List.mem_append.1 hx with hx | hx
          · exact hacc x hx
          · have : x = v := by simpa using hx
            subst this
            exact ⟨hvn, hvreach⟩
        · exact houtvmem x hx
      have hclosenew : ∀ u w, (u ∈ outv ∨ u = v) → Adj g u w → w ∈ g.nodes →
          (w ∈ res ∨ w ∈ (acc ++ [v]) ++ outv ∨ w = s) := by
        intro u w hu hadj hwn
        by_cases hwres : w ∈ res
        · exact .inl hwres
        by_cases hwacc2 : w ∈ (acc ++ [v]) ++ outv
        · exact .inr (.inl hwacc2)
        by_cases hws : w = s
        · exact .inr (.inr hws)
        exfalso
        have hwacc1 : ¬ w ∈ acc ++ [v] := fun h => hwacc2 (List.mem_append_left _ h)
        have hwsub : w ∈ (spliceSub g res (acc ++ [v]) v).nodes :=
          mem_spliceSub.2 ⟨hwn, .inl ⟨hwres, hwacc1⟩⟩
        have husub : (¬ u ∈ res ∧ ¬ u ∈ acc ++ [v]) ∨ u = v := by
          rcases hu with hu | hu
          · exact (mem_spliceSub.1 (hpostv.subset u hu)).2
          · exact .inr hu
        have hadjsub : Adj (spliceSub g res (acc ++ [v]) v) u w :=
          adj_spliceSub_of hadj husub (.inl ⟨hwres, hwacc1⟩)
        rcases hpostv.closure u w hu hadjsub hwsub with hw2 | hw2
        · exact hwacc2 (List.mem_append_right _ hw2)
        · subst hw2
          exact hwres hvres
      have hinv2 : ∀ u w, (u ∈ (acc ++ [v]) ++ outv ∨ u ∈ v :: visited) →
          Adj g u w → w ∈ g.nodes → (w ∈ res ∨ w ∈ (acc ++ [v]) ++ outv ∨ w = s) := by
        intro u w hu hadj hwn
        have hu2 : (u ∈ acc ∨ u ∈ visited) ∨ (u ∈ outv ∨ u = v) := by
          rcases hu with hu | hu
          · rcases List.mem_append.1 hu with hu | hu
            · rcases List.mem_append.1 hu with hu | hu
              · exact .inl (.inl hu)
              · exact .inr (.inr (by simpa using hu))
            · exact .inr (.inl hu)
          · rcases List.mem_cons.1 hu with rfl | hu
            · exact .inr (.inr rfl)
            · exact .inl (.inr hu)
        rcases hu2 with hu2 | hu2
        · rcases hinv u w hu2 hadj hwn with h | h | h
          · exact .inl h
          · exact .inr (.inl (List.mem_append_left _ (List.mem_append_left _ h)))
          · exact .inr (.inr h)
        · exact hclosenew u w hu2 hadj hwn
      have hpre2b : ∃ pre2, res = pre2 ++ rest ∧
          ∀ x ∈ pre2, x ∈ (acc ++ [v]) ++ outv := by
        refine ⟨pre ++ [v], by rw [hpre1]; simp, ?_⟩
        intro x hx
        rcases List.mem_append.1 hx with hx | hx
        · exact List.mem_append_left _ (List.mem_append_left _ (hpre2 x hx))
        · exact List.mem_append_left _ (List.mem_append_right _ hx)
      obtain ⟨out, heq, ⟨ext, hext1, hext2⟩, hout1, hout2, hout3, hout4, hout5⟩ :=
        ih ((acc ++ [v]) ++ outv) (v :: visited) hpre2b hacc2 hinv2
          (List.mem_cons_of_mem _ hvs)
      refine ⟨out, ?_, ⟨v :: (outv ++ ext), ?_, ?_⟩, hout1, hout2, ?_, ?_, ?_⟩
      · simp only [walkAux, if_neg hv, heqv]
        exact heq
      · rw [hext1]
        simp
      · intro _
        rfl
      · intro u w hu hadj hwn
        refine hout3 u w ?_ hadj hwn
        rcases hu with hu | hu
        · exact .inl hu
        · exact .inr (List.mem_cons_of_mem _ hu)
      · intro h
        cases h
      · intro _ hlast
        cases hrest : rest with
        | nil =>
          subst hrest
          have hvs2 : v = s := by simpa using hlast
          exact absurd hvs2 hvns
        | cons b u2 =>
          have hrestne : rest ≠ [] := by rw [hrest]; simp
          have hlast2 : rest.getLast? = some s := by
            have := getLast?_append_ne hrestne [v]
            rw [← hlast]
            rw [← this]
            rfl
          exact hout5 hrestne hlast2

theorem fl_spec {sel : Graph → Nat → Option (List Nat)} (hsel : ValidSel sel) :
    ∀ fuel : Nat, FLStatement sel fuel := by
  intro fuel
  induction fuel with
  | zero =>
    intro g s _ _ hlen
    omega
  | succ fuel ih =>
    intro g s hwf hs hlen
    obtain ⟨res, heqres, hloop⟩ :=
      reduceLoop_spec hsel (g.nodes.length + 1) g s hwf hs (le_refl _)
    cases hresc : res with
    | nil =>
      subst hresc
      refine ⟨[], ?_, ?_⟩
      · simp only [findLongestPathsWith, heqres, walkAux]
      · have hnonbr : ∀ w, w ∈ g.nodes → Adj g s w → w ≠ s → False := by
          intro w hwn hadj hws
          have := hloop.nbrs w hwn hadj hws
          cases this
        refine ⟨by simp, by simp, ?_, ?_, ?_, fun _ => rfl, ?_⟩
        · intro v w hv hadj hwn
          have hvs : v = s := by
            rcases hv with hv | hv
            · cases hv
            · exact hv
          rw [hvs] at hadj
          by_cases hws : w = s
          · exact .inr hws
          · exact absurd (hnonbr w hwn hadj hws) id
        · intro h
          exact absurd rfl h
        · rintro ⟨w, hwn, hadj, hws⟩
          exact absurd (hnonbr w hwn hadj hws) id
        · intro h
          exact absurd rfl h
    | cons r0 rtail =>
      have hresne : res ≠ [] := by rw [hresc]; simp
      have hlastres : res.getLast? = some s := by
        rcases hloop.lastS with h | h
        · exact absurd h hresne
        · exact h
      have hsres : s ∈ res := by
        obtain ⟨hne, heq2⟩ := List.mem_getLast?_eq_getLast (Option.mem_def.2 hlastres)
        rw [heq2]
        exact List.getLast_mem hne
      have hinvinit : ∀ u w, (u ∈ ([] : List Nat) ∨ u ∈ [s]) → Adj g u w →
          w ∈ g.nodes → (w ∈ res ∨ w ∈ ([] : List Nat) ∨ w = s) := by
        intro u w hu hadj hwn
        have hus : u = s := by
          rcases hu with hu | hu
          · cases hu
          · simpa using hu
        rw [hus] at hadj
        by_cases hws : w = s
        · exact .inr (.inr hws)
        · exact .inl (hloop.nbrs w hwn hadj hws)
      have hwalk := walk_spec ih hwf (by omega) hloop.subset hloop.reach hsres
        res [] [s] ⟨[], by simp, by simp⟩ (by simp) hinvinit (by simp)
      obtain ⟨out, heq, ⟨ext, hext1, hext2⟩, hout1, hout2, hout3, _, hout5⟩ := hwalk
      have houtres : ∀ x ∈ res, x ∈ out := hout2
      refine ⟨out, ?_, ?_⟩
      · simp only [findLongestPathsWith, heqres]
        exact heq
      · refine ⟨fun x hx => (hout1 x hx).1, fun x hx => (hout1 x hx).2, ?_, ?_, ?_, ?_, ?_⟩
        · intro v w hv hadj hwn
          have hv2 : v ∈ out ∨ v ∈ [s] := by
            rcases hv with hv | hv
            · exact .inl hv
            · exact .inr (by simp [hv])
          rcases hout3 v w hv2 hadj hwn with h | h | h
          · exact .inl (houtres w h)
          · exact .inl h
          · exact .inr h
        · intro _
          exact (hout5 hresne hlastres).2
        · intro _
          exact houtres s hsres
        · intro hno
          have := hloop.iso hno
          exact absurd this hresne
        · intro houtne
          rcases hloop.headAdj with h | ⟨w, t2, hresshape, hadjw, hwns⟩
          · exact absurd h hresne
          · have hexthead : ext.head? = some w := by
              rw [hext2 hresne, hresshape]
              rfl
            obtain ⟨ext2, hext3⟩ : ∃ ext2, ext = w :: ext2 := by
              cases ext with
              | nil => cases hexthead
              | cons a u =>
                have : a = w := by simpa using hexthead
                subst this
                exact ⟨u, rfl⟩
            refine ⟨w, ext2, ?_, hadjw, hwns⟩
            rw [hext1, hext3]
            simp

/-! ### Consequences of the planner specification -/

theorem posts_reach_mem {g : Graph} {s : Nat} {out : List Nat} (hwf : WF g)
    (hp : Posts g s out) : ∀ x, Reach g s x → x ∈ out ∨ x = s := by
  intro x hx
  induction hx with
  | refl => exact .inr rfl
  | tail _ hadj ihx => exact hp.closure _ _ ihx hadj (adj_mem_right hwf hadj)

theorem posts_mem_iff {g : Graph} {s : Nat} {out : List Nat} (hwf : WF g)
    (hp : Posts g s out) (x : Nat) :
    x ∈ out ↔ ((x = s ∧ ∃ w, w ∈ g.nodes ∧ Adj g s w ∧ w ≠ s) ∨
      (x ≠ s ∧ Reach g s x)) := by
  constructor
  · intro hx
    by_cases hxs : x = s
    · refine .inl ⟨hxs, ?_⟩
      by_contra hno
      have hiso := hp.iso (fun w hw => hno ⟨w, hw⟩)
      rw [hiso] at hx
      cases hx
    · exact .inr ⟨hxs, hp.reach x hx⟩
  · rintro (⟨rfl, hex⟩ | ⟨hxs, hr⟩)
    · exact hp.startMem hex
    · rcases posts_reach_mem hwf hp x hr with h | h
      · exact h
      · exact absurd h hxs

theorem reach_of_bfs {g : Graph} {s x : Nat} (h : (bfs g s x).isSome = true) :
    Reach g s x := by
  obtain ⟨r, hr⟩ := Option.isSome_iff_exists.1 h
  obtain ⟨hhead, hlast, hchain, _⟩ := bfs_sound hr
  refine chain_head_reach r s hchain hhead x ?_
  obtain ⟨hne, heq⟩ := List.mem_getLast?_eq_getLast (Option.mem_def.2 hlast)
  rw [heq]
  exact List.getLast_mem hne

theorem reach_mem_closed {g : Graph} (hwf : WF g) {s x : Nat} {C : List Nat}
    (hsC : s ∈ C) (hclosed : ∀ a ∈ C, ∀ b, b ∈ g.nodes → Adj g a b → b ∈ C)
    (h : Reach g s x) : x ∈ C := by
  induction h with
  | refl => exact hsC
  | tail _ hadj ihx => exact hclosed _ ihx _ (adj_mem_right hwf hadj) hadj

theorem exists_ne_of_nodup_two {l : List Nat} {s : Nat} (hnd : l.Nodup)
    (hlen : 2 ≤ l.length) : ∃ y ∈ l, y ≠ s := by
  cases l with
  | nil => simp at hlen
  | cons a t =>
    cases t with
    | nil => simp at hlen
    | cons b u =>
      by_cases has : a = s
      · refine ⟨b, by simp, ?_⟩
        intro hbs
        have : a ∈ b :: u := by
          rw [has, ← hbs]
          simp
        exact (List.nodup_cons.1 hnd).1 this
      · exact ⟨a, by simp, has⟩

theorem exists_start_nbr {g : Graph} (hwf : WF g) {s y : Nat}
    (h : Reach g s y) (hne : y ≠ s) :
    ∃ w, w ∈ g.nodes ∧ Adj g s w ∧ w ≠ s := by
  induction h with
  | refl => exact absurd rfl hne
  | @tail b c _ hadj ihx =>
    by_cases hbs : b = s
    · refine ⟨c, adj_mem_right hwf hadj, ?_, hne⟩
      rw [← hbs]
      exact hadj
    · exact ihx hbs

/-! ### Concrete instances used to settle the claims -/

/-- The one-node connected graph. -/
def singleG : Graph := ⟨[1], []⟩

/-- The star graph of the specification: center 1, leaves 2, 3, 4. -/
def starG : Graph := ⟨[1, 2, 3, 4], [(1, 2), (1, 3), (1, 4)]⟩

/-- The four-node cycle of the specification. -/
def cyc4G : Graph := ⟨[1, 2, 3, 4], [(1, 2), (2, 3), (3, 4), (4, 1)]⟩

/-- Two disconnected components: an edge 1-2 and an edge 3-4. -/
def discG : Graph := ⟨[1, 2, 3, 4], [(1, 2), (3, 4)]⟩

/-- A four-cycle 1-2-3-4 with the pendant 5 attached to 3: several longest
simple paths from 1 of equal length exist. -/
def c9G : Graph := ⟨[1, 2, 3, 4, 5], [(1, 2), (2, 3), (3, 4), (4, 1), (3, 5)]⟩

/-- The triangle 1-2-3: from anchor 1 the search has four equally long
candidates, the simple paths 1,2,3 and 1,3,2 and the closed walks 1,2,1 and
1,3,1 (all of three entries). -/
def triG : Graph := ⟨[1, 2, 3], [(1, 2), (1, 3), (2, 3)]⟩

/-- A second scheduling of the parallel search: on `triG` from node 1 it
keeps the equally long closed walk `[1, 2, 1]`, elsewhere it agrees with
the canonical order.  Any such choice is a possible outcome of the rayon
reduction. -/
def sel2 : Graph → Nat → Option (List Nat) := fun g a =>
  if g = triG ∧ a = 1 then some [1, 2, 1] else canonicalSel g a

theorem sel2_eq_point : sel2 triG 1 = some [1, 2, 1] := rfl

theorem sel2_eq_other {g : Graph} {a : Nat} (h : ¬ (g = triG ∧ a = 1)) :
    sel2 g a = canonicalSel g a := by
  simp only [sel2, if_neg h]

theorem sel2_valid : ValidSel sel2 := by
  intro g a ha
  by_cases h : g = triG ∧ a = 1
  · obtain ⟨rfl, rfl⟩ := h
    constructor
    · intro p hp
      rw [sel2_eq_point] at hp
      have hp2 : [1, 2, 1] = p := Option.some_inj.1 hp
      rw [← hp2]
      constructor
      · decide
      · decide
    · intro hp
      rw [sel2_eq_point] at hp
      cases hp
  · constructor
    · intro p hp
      rw [sel2_eq_other h] at hp
      exact (canonicalSel_valid g a ha).1 p hp
    · intro hp
      rw [sel2_eq_other h] at hp
      exact (canonicalSel_valid g a ha).2 hp

/-! ### The claims -/

/-- C1, counterexample: on the connected one-node graph with start 1 the
planner returns the empty route, which does not visit node 1, so coverage
fails as stated for this connected graph. -/
theorem c1_single_node_counterexample :
    WF singleG ∧ 1 ∈ singleG.nodes ∧ (∀ x ∈ singleG.nodes, Reach singleG 1 x) ∧
      findLongestPaths singleG 1 = Except.ok [] ∧ ¬ 1 ∈ ([] : List Nat) := by
  refine ⟨by decide, by decide, ?_, rfl, by simp⟩
  intro x hx
  have hx1 : x = 1 := by
    have : x ∈ [1] := hx
    simpa using this
  rw [hx1]
  exact Relation.ReflTransGen.refl

/-- C1, amended: for every well-formed connected graph with at least two
nodes and a start node in it, the planner succeeds and the set of distinct
ids of the returned route equals the node set of the graph. -/
theorem c1_coverage_amended (g : Graph) (s : Nat) (hwf : WF g) (hs : s ∈ g.nodes)
    (hlen : 2 ≤ g.nodes.length) (hconn : ∀ x ∈ g.nodes, Reach g s x) :
    ∃ out, findLongestPaths g s = Except.ok out ∧ ∀ x, x ∈ out ↔ x ∈ g.nodes := by
  obtain ⟨out, heq, hposts⟩ :=
    fl_spec canonicalSel_valid (g.nodes.length + 1) g s hwf hs (le_refl _)
  refine ⟨out, heq, ?_⟩
  intro x
  constructor
  · exact fun hx => hposts.subset x hx
  · intro hx
    rcases posts_reach_mem hwf hposts x (hconn x hx) with h | h
    · exact h
    · rw [h]
      obtain ⟨y, hy, hyne⟩ := exists_ne_of_nodup_two hwf.1 hlen
      obtain ⟨w, hw⟩ := exists_start_nbr hwf (hconn y hy) hyne
      exact hposts.startMem ⟨w, hw⟩

/-- C1, witness: on the four-node cycle from start 1 the route covers
exactly the node set. -/
theorem c1_coverage_amended_witness :
    ∃ out, findLongestPaths cyc4G 1 = Except.ok out ∧
      ∀ x, x ∈ out ↔ x ∈ cyc4G.nodes := by
  refine c1_coverage_amended cyc4G 1 (by decide) (by decide) (by decide) ?_
  intro x hx
  have hx4 : x = 1 ∨ x = 2 ∨ x = 3 ∨ x = 4 := by
    have : x ∈ [1, 2, 3, 4] := hx
    simpa using this
  rcases hx4 with rfl | rfl | rfl | rfl
  · exact reach_of_bfs (by decide)
  · exact reach_of_bfs (by decide)
  · exact reach_of_bfs (by decide)
  · exact reach_of_bfs (by decide)

/-- C2, counterexample: the star graph has node 2 reachable from start 1,
yet the route starts with a leaf id, not with the start id (the trunk path
drops its anchor, so the start only ever appears after a return segment). -/
theorem c2_star_counterexample :
    1 ∈ starG.nodes ∧ Reach starG 1 2 ∧ 2 ≠ 1 ∧
      findLongestPaths starG 1 = Except.ok [4, 1, 3, 1, 2, 1] ∧
      ([4, 1, 3, 1, 2, 1] : List Nat).head? ≠ some 1 :=
  ⟨by decide, Relation.ReflTransGen.single (by decide), by decide, rfl, by decide⟩

/-- C2, amended: a nonempty route starts with the second node of the first
trunk path, a neighbor of the start distinct from it, not with the start
id; on the star graph the route is leaf,1,leaf,1,leaf,1 (up to leaf
order). -/
theorem c2_first_id_amended :
    (∀ sel g s out, ValidSel sel → WF g → s ∈ g.nodes →
      findLongestPathsWith sel (g.nodes.length + 1) g s = Except.ok out →
      out ≠ [] → ∃ w t, out = w :: t ∧ Adj g s w ∧ w ≠ s) ∧
    findLongestPaths starG 1 = Except.ok [4, 1, 3, 1, 2, 1] := by
  constructor
  · intro sel g s out hsel hwf hs heq hne
    obtain ⟨out2, heq2, hposts⟩ :=
      fl_spec hsel (g.nodes.length + 1) g s hwf hs (le_refl _)
    rw [heq] at heq2
    injection heq2 with h2
    rw [← h2] at hposts
    exact hposts.headAdj hne
  · rfl

/-- C2, witness: the amended statement applied to the star graph. -/
theorem c2_first_id_amended_witness :
    ∃ w t, ([4, 1, 3, 1, 2, 1] : List Nat) = w :: t ∧ Adj starG 1 w ∧ w ≠ 1 :=
  c2_first_id_amended.1 canonicalSel starG 1 [4, 1, 3, 1, 2, 1]
    canonicalSel_valid (by decide) (by decide) rfl (by decide)

/-- C3: whenever the path search keeps a path, no simple path starting at
the anchor in that graph is strictly longer; on the four-node cycle from
anchor 1 it returns the Hamiltonian path 1,2,3,4. -/
theorem c3_search_maximal :
    (∀ sel g a p, ValidSel sel → a ∈ g.nodes → sel g a = some p →
      ∀ q : List Nat, q.head? = some a → q.Nodup → q.Chain' (Adj g) →
        (∀ x ∈ q, x ∈ g.nodes) → q.length ≤ p.length) ∧
    (canonicalSel cyc4G 1 = some [1, 2, 3, 4] ∧
      ([1, 2, 3, 4] : List Nat).Nodup ∧ ([1, 2, 3, 4] : List Nat).length = 4 ∧
      ∀ x ∈ ([1, 2, 3, 4] : List Nat), x ∈ cyc4G.nodes) := by
  constructor
  · intro sel g a p hsel ha hp q hqhead hqnd hqchain hqsub
    obtain ⟨hpc, hmax⟩ := (hsel g a ha).1 p hp
    by_cases hql : 2 ≤ q.length
    · refine hmax q (mem_candidates_iff.2 (.inl ⟨hqhead, hqnd, hqchain, ?_, hql⟩))
      intro y hy
      exact hqsub y (List.mem_of_mem_tail hy)
    · have hp2 : 2 ≤ p.length := cand_length_two hpc
      omega
  · exact ⟨rfl, by decide, by decide, by decide⟩

/-- C3, witness: the maximality statement applied on the four-node cycle to
the simple path 1,2. -/
theorem c3_search_maximal_witness :
    ([1, 2] : List Nat).length ≤ ([1, 2, 3, 4] : List Nat).length :=
  c3_search_maximal.1 canonicalSel cyc4G 1 [1, 2, 3, 4] canonicalSel_valid
    (by decide) rfl [1, 2] rfl (by decide)
    (List.chain'_cons.2 ⟨by decide, List.chain'_singleton 2⟩) (by decide)

/-- C4: the graph passed to a recursive call (the splice subgraph built at a
first occurrence, where the start is already consumed and differs from the
junction) has strictly fewer nodes than the caller's graph, and
consequently recursion depth fuel equal to the node count plus one suffices
for the whole planner to complete. -/
theorem c4_recursion_decreases :
    (∀ (g : Graph) (res acc : List Nat) (v s : Nat), s ∈ g.nodes → s ∈ res →
      v ≠ s → (spliceSub g res acc v).nodes.length < g.nodes.length) ∧
    (∀ sel g s, ValidSel sel → WF g → s ∈ g.nodes →
      ∃ out, findLongestPathsWith sel (g.nodes.length + 1) g s = Except.ok out) := by
  constructor
  · intro g res acc v s hs hsres hvs
    exact spliceSub_lt hs hsres (fun h => hvs h.symm)
  · intro sel g s hsel hwf hs
    obtain ⟨out, heq, _⟩ := fl_spec hsel (g.nodes.length + 1) g s hwf hs (le_refl _)
    exact ⟨out, heq⟩

/-- C4, witness: a concrete splice subgraph decrease and a completed run. -/
theorem c4_recursion_decreases_witness :
    (spliceSub c9G [1] [] 2).nodes.length < c9G.nodes.length ∧
      ∃ out, findLongestPathsWith canonicalSel (c9G.nodes.length + 1) c9G 1 =
        Except.ok out :=
  ⟨c4_recursion_decreases.1 c9G [1] [] 2 1 (by decide) (by decide) (by decide),
    c4_recursion_decreases.2 canonicalSel c9G 1 canonicalSel_valid (by decide)
      (by decide)⟩

/-- C5: whenever the search keeps a path, reducing the working graph by the
consumed outgoing-plus-return nodes strictly decreases the node count, and
the reduction loop completes with fuel node count plus one, so it performs
at most that many iterations. -/
theorem c5_reduction_monotone :
    (∀ sel g s p (r : List Nat), ValidSel sel → s ∈ g.nodes → sel g s = some p →
      (reduceGraph g s (p.drop 1 ++ r)).nodes.length < g.nodes.length) ∧
    (∀ sel g s, ValidSel sel → WF g → s ∈ g.nodes →
      ∃ res, reduceLoop sel (g.nodes.length + 1) g s = Except.ok res) := by
  constructor
  · intro sel g s p r hsel hs hp
    have hpc : p ∈ candidates g s := ((hsel g s hs).1 p hp).1
    obtain ⟨w, t, hpshape, _, hwns, hwn⟩ := cand_shape hpc
    refine reduceGraph_lt hwn ?_ hwns
    rw [hpshape]
    simp
  · intro sel g s hsel hwf hs
    obtain ⟨res, heq, _⟩ :=
      reduceLoop_spec hsel (g.nodes.length + 1) g s hwf hs (le_refl _)
    exact ⟨res, heq⟩

/-- C5, witness: a concrete reduction step strictly shrinks the graph, and
the loop completes on the concrete graph. -/
theorem c5_reduction_monotone_witness :
    (reduceGraph c9G 1 (([1, 4, 3, 2, 1] : List Nat).drop 1 ++ [])).nodes.length
        < c9G.nodes.length ∧
      ∃ res, reduceLoop canonicalSel (c9G.nodes.length + 1) c9G 1 = Except.ok res :=
  ⟨c5_reduction_monotone.1 canonicalSel c9G 1 [1, 4, 3, 2, 1] []
      canonicalSel_valid (by decide) rfl,
    c5_reduction_monotone.2 canonicalSel c9G 1 canonicalSel_valid (by decide)
      (by decide)⟩

/-- C6: after a reduction the working graph holds exactly the previous nodes
that are off the consumed path or equal to the anchor; the anchor is always
retained, and the anchor lookup of the loop never fails. -/
theorem c6_reduce_keeps_anchor :
    (∀ (g : Graph) (s : Nat) (full : List Nat) (x : Nat),
      x ∈ (reduceGraph g s full).nodes ↔ x ∈ g.nodes ∧ (¬ x ∈ full ∨ x = s)) ∧
    (∀ (g : Graph) (s : Nat) (full : List Nat), s ∈ g.nodes →
      s ∈ (reduceGraph g s full).nodes) ∧
    (∀ sel g s, ValidSel sel → WF g → s ∈ g.nodes →
      reduceLoop sel (g.nodes.length + 1) g s ≠ Except.error PlanError.startGone) := by
  refine ⟨fun g s full x => mem_reduceGraph,
    fun g s full hs => mem_reduceGraph.2 ⟨hs, .inr rfl⟩, ?_⟩
  intro sel g s hsel hwf hs
  obtain ⟨res, heq, _⟩ :=
    reduceLoop_spec hsel (g.nodes.length + 1) g s hwf hs (le_refl _)
  rw [heq]
  intro h
  cases h

/-- C6, witness: the reduction facts on the star graph. -/
theorem c6_reduce_keeps_anchor_witness :
    (2 ∈ (reduceGraph starG 1 [2, 1]).nodes ↔
      2 ∈ starG.nodes ∧ (¬ 2 ∈ ([2, 1] : List Nat) ∨ 2 = 1)) ∧
    1 ∈ (reduceGraph starG 1 [2, 1]).nodes ∧
    reduceLoop canonicalSel (starG.nodes.length + 1) starG 1 ≠
      Except.error PlanError.startGone :=
  ⟨c6_reduce_keeps_anchor.1 starG 1 [2, 1] 2,
    c6_reduce_keeps_anchor.2.1 starG 1 [2, 1] (by decide),
    c6_reduce_keeps_anchor.2.2 canonicalSel starG 1 canonicalSel_valid (by decide)
      (by decide)⟩

/-- C7, counterexample: on two disconnected components with the start in
one of them (node 3 is not reachable from node 1) the planner does not
raise the no-return-path error; it completes normally with the route 2,1
restricted to the start's component. -/
theorem c7_disconnected_counterexample :
    1 ∈ discG.nodes ∧ 3 ∈ discG.nodes ∧ ¬ Reach discG 1 3 ∧
      findLongestPaths discG 1 = Except.ok [2, 1] ∧
      findLongestPaths discG 1 ≠ Except.error PlanError.noReturn := by
  refine ⟨by decide, by decide, ?_, rfl, ?_⟩
  · intro h
    have h3 : (3 : Nat) ∈ [1, 2] :=
      reach_mem_closed (by decide) (by decide) (by decide) h
    simp at h3
  · intro h
    rw [(rfl : findLongestPaths discG 1 = Except.ok [2, 1])] at h
    cases h

/-- C7, amended: for every well-formed graph containing the start,
connected or not, the planner completes without any error and the route
only visits nodes reachable from the start; in particular the fatal
no-return-path error cannot fire, since a found trunk path always connects
its endpoint back to the anchor inside the working graph. -/
theorem c7_no_return_amended (sel : Graph → Nat → Option (List Nat)) (g : Graph)
    (s : Nat) (hsel : ValidSel sel) (hwf : WF g) (hs : s ∈ g.nodes) :
    ∃ out, findLongestPathsWith sel (g.nodes.length + 1) g s = Except.ok out ∧
      ∀ x ∈ out, Reach g s x := by
  obtain ⟨out, heq, hposts⟩ :=
    fl_spec hsel (g.nodes.length + 1) g s hwf hs (le_refl _)
  exact ⟨out, heq, fun x hx => hposts.reach x hx⟩

/-- C7, witness: the amended statement applied to the disconnected graph. -/
theorem c7_no_return_amended_witness :
    ∃ out, findLongestPathsWith canonicalSel (discG.nodes.length + 1) discG 1 =
      Except.ok out ∧ ∀ x ∈ out, Reach discG 1 x :=
  c7_no_return_amended canonicalSel discG 1 canonicalSel_valid (by decide)
    (by decide)

/-- C8, counterexample: on the star graph the search from anchor 1 keeps
the closed walk 1,4,1, which contains the anchor twice; indeed every
maximum-length candidate there is such a walk, so no scheduling of the
parallel reduction keeps a duplicate-free path. -/
theorem c8_cycle_counterexample :
    canonicalSel starG 1 = some [1, 4, 1] ∧ ¬ ([1, 4, 1] : List Nat).Nodup ∧
      (∀ p ∈ candidates starG 1,
        (∀ q ∈ candidates starG 1, q.length ≤ p.length) → ¬ p.Nodup) :=
  ⟨rfl, by decide, by decide⟩

/-- C8, amended: every path the search step keeps starts at the anchor, and
its remainder after the anchor contains no duplicate node; the anchor
itself may reappear, but only once and only as the final element (petgraph
yields such closed walks when the target equals the anchor). -/
theorem c8_path_anchored_amended :
    ∀ sel g a p, ValidSel sel → a ∈ g.nodes → sel g a = some p →
      p.head? = some a ∧ p.tail.Nodup ∧
        (a ∈ p.tail → p.getLast? = some a) := by
  intro sel g a p hsel ha hp
  rcases mem_candidates_iff.1 ((hsel g a ha).1 p hp).1 with hcand | hcyc
  · obtain ⟨w, t, hshape, _⟩ := hcand.cand_parts
    have hnd := hcand.2.1
    rw [hshape] at hnd
    refine ⟨hcand.1, ?_, ?_⟩
    · rw [hshape]
      exact (List.nodup_cons.1 hnd).2
    · intro hat
      exfalso
      rw [hshape] at hat
      exact (List.nodup_cons.1 hnd).1 hat
  · obtain ⟨_, _, _, _, _, _, hplast⟩ := hcyc.cycle_parts
    obtain ⟨q, hpq, hqhead, hqnd, _, _, hql, _⟩ := hcyc
    cases q with
    | nil => cases hqhead
    | cons x q1 =>
      have hxa : x = a := by simpa using hqhead
      refine ⟨?_, ?_, fun _ => hplast⟩
      · rw [hpq, List.cons_append, hxa]
        rfl
      · rw [hpq, List.cons_append]
        simp only [List.tail_cons]
        refine List.nodup_append.2 ⟨(List.nodup_cons.1 hqnd).2,
          List.nodup_singleton a, ?_⟩
        intro b hb hba
        have hba2 : b = a := by simpa using hba
        refine (List.nodup_cons.1 hqnd).1 ?_
        rw [hxa, ← hba2]
        exact hb

/-- C8, witness: the amended statement applied to the kept closed walk on
the star graph. -/
theorem c8_path_anchored_amended_witness :
    ([1, 4, 1] : List Nat).head? = some 1 ∧ ([1, 4, 1] : List Nat).tail.Nodup ∧
      (1 ∈ ([1, 4, 1] : List Nat).tail →
        ([1, 4, 1] : List Nat).getLast? = some 1) :=
  c8_path_anchored_amended canonicalSel starG 1 [1, 4, 1] canonicalSel_valid
    (by decide) rfl

/-- C9, counterexample: two valid tie-break schedulings of the search on
the triangle produce routes of different total length (3 versus 4): the
canonical order keeps the simple path 1,2,3 while an equally long kept
candidate is the closed walk 1,2,1, after which node 3 costs an extra loop
segment. -/
theorem c9_tiebreak_counterexample :
    ValidSel canonicalSel ∧ ValidSel sel2 ∧
      findLongestPathsWith canonicalSel (triG.nodes.length + 1) triG 1 =
        Except.ok [2, 3, 1] ∧
      findLongestPathsWith sel2 (triG.nodes.length + 1) triG 1 =
        Except.ok [2, 1, 3, 1] ∧
      ([2, 3, 1] : List Nat).length ≠ ([2, 1, 3, 1] : List Nat).length :=
  ⟨canonicalSel_valid, sel2_valid, rfl, rfl, by decide⟩

/-- C9, amended: two runs under any two valid tie-break schedulings on the
same well-formed graph and start both succeed and produce routes with the
same set of distinct node ids (total length may differ). -/
theorem c9_same_coverage_amended (selA selB : Graph → Nat → Option (List Nat))
    (g : Graph) (s : Nat) (hA : ValidSel selA) (hB : ValidSel selB)
    (hwf : WF g) (hs : s ∈ g.nodes) :
    ∃ outA outB, findLongestPathsWith selA (g.nodes.length + 1) g s = Except.ok outA ∧
      findLongestPathsWith selB (g.nodes.length + 1) g s = Except.ok outB ∧
      ∀ x, x ∈ outA ↔ x ∈ outB := by
  obtain ⟨outA, heqA, hpA⟩ := fl_spec hA (g.nodes.length + 1) g s hwf hs (le_refl _)
  obtain ⟨outB, heqB, hpB⟩ := fl_spec hB (g.nodes.length + 1) g s hwf hs (le_refl _)
  refine ⟨outA, outB, heqA, heqB, ?_⟩
  intro x
  exact (posts_mem_iff hwf hpA x).trans (posts_mem_iff hwf hpB x).symm

/-- C9, witness: the amended statement applied to the two concrete
schedulings on the five-node graph. -/
theorem c9_same_coverage_amended_witness :
    ∃ outA outB, findLongestPathsWith canonicalSel (c9G.nodes.length + 1) c9G 1 =
      Except.ok outA ∧
      findLongestPathsWith sel2 (c9G.nodes.length + 1) c9G 1 = Except.ok outB ∧
      ∀ x, x ∈ outA ↔ x ∈ outB :=
  c9_same_coverage_amended canonicalSel sel2 c9G 1 canonicalSel_valid sel2_valid
    (by decide) (by decide)

/-- C10: a nonempty route returned by the planner ends with the start id:
every trunk segment ends with the anchor after its return path, and the
splice walk appends nothing after the final occurrence of the start. -/
theorem c10_route_ends_at_start :
    ∀ sel g s out, ValidSel sel → WF g → s ∈ g.nodes →
      findLongestPathsWith sel (g.nodes.length + 1) g s = Except.ok out →
      out ≠ [] → out.getLast? = some s := by
  intro sel g s out hsel hwf hs heq hne
  obtain ⟨out2, heq2, hposts⟩ :=
    fl_spec hsel (g.nodes.length + 1) g s hwf hs (le_refl _)
  rw [heq] at heq2
  injection heq2 with h2
  rw [← h2] at hposts
  exact hposts.lastS hne

/-- C10, witness: the star route ends with the start id 1. -/
theorem c10_route_ends_at_start_witness :
    ([4, 1, 3, 1, 2, 1] : List Nat).getLast? = some 1 :=
  c10_route_ends_at_start canonicalSel starG 1 [4, 1, 3, 1, 2, 1]
    canonicalSel_valid (by decide) (by decide) rfl (by decide)

end FrontierRoute
